import Mathlib

/-!
# Verification of the t_query transit engine

Shallow embedding of `src/7_nimick/t_query/src/graph.rs` and
`src/7_nimick/t_query/src/t.rs` and proofs about them.

Modelling conventions:
* Rust `usize` is modelled as `Nat`; the sentinel `usize::MAX` is the
  constant `USIZE_MAX = 2^64 - 1`.  Arithmetic is exact (it is shown that the
  theorems that depend on it carry hypotheses keeping every intermediate
  value below `2^64`, where exact and machine arithmetic agree).
* Rust `String` is modelled as `List Char` (`Str`); Rust's byte-wise
  lexicographic order on UTF-8 strings coincides with the scalar-value
  lexicographic order used here.
* `HashMap`/`HashSet` iterate in an arbitrary order; they are modelled as
  association lists / lists, fixing one iteration order explicitly.
* `BinaryHeap` with the reversed `Ord` on `State` pops a minimum-cost entry,
  ties broken arbitrarily; `popMin` pops the leftmost minimal entry.
* The Rust `while let` loop of `find_shortest_path` terminates because every
  queue push strictly decreases a recorded tentative cost; the embedding
  runs the loop on an explicit fuel `dijkstraFuel` that is proved to exceed
  the number of iterations the loop can make.
-/

/-- Rust `String`, as a list of characters. -/
abbrev Str := List Char

/-- Does `s` start with `pre`?  (Building block for Rust's `str::contains`.) -/
def strHasPre : Str → Str → Bool
  | [], _ => true
  | _ :: _, [] => false
  | a :: as, b :: bs => a = b && strHasPre as bs

/-- Rust `hay.contains(needle)`: substring test. -/
def strContains (hay needle : Str) : Bool :=
  match hay with
  | [] => strHasPre needle []
  | _ :: rest => strHasPre needle hay || strContains rest needle

/-- Byte-wise (here: scalar-value-wise) lexicographic order on strings,
the order used by Rust's `Vec::<String>::sort`. -/
def lexLe : Str → Str → Bool
  | [], _ => true
  | _ :: _, [] => false
  | a :: as, b :: bs => if a = b then lexLe as bs else decide (a < b)

/-- Insert into a `lexLe`-sorted list, keeping it sorted. -/
def sortedInsert (x : Str) : List Str → List Str
  | [] => [x]
  | y :: ys => if lexLe x y then x :: y :: ys else y :: sortedInsert x ys

/-- Sorting by `lexLe`; models Rust's `Vec::<String>::sort`. -/
def sortStr (l : List Str) : List Str := l.foldr sortedInsert []

/-- Association-list lookup (model of `HashMap::get`). -/
def assocGet [DecidableEq κ] (k : κ) : List (κ × α) → Option α
  | [] => none
  | (k', v) :: rest => if k' = k then some v else assocGet k rest

/-- Association-list update of the first binding of `k`
(model of writing through `HashMap::get_mut`). -/
def assocSet [DecidableEq κ] (k : κ) (v : α) : List (κ × α) → List (κ × α)
  | [] => [(k, v)]
  | (k', v') :: rest => if k' = k then (k, v) :: rest else (k', v') :: assocSet k v rest

/-- `HashSet::insert` on the list model. -/
def hsInsert [DecidableEq α] (x : α) (l : List α) : List α :=
  if x ∈ l then l else l ++ [x]

/-- Modify the element at an index, if present (model of `vec[i].push(..)` etc.). -/
def listModify : List α → ℕ → (α → α) → List α
  | [], _, _ => []
  | x :: xs, 0, f => f x :: xs
  | x :: xs, n + 1, f => x :: listModify xs n f

/-! ## graph.rs : `Graph` -/

/-- `usize::MAX` on a 64-bit platform. -/
def USIZE_MAX : ℕ := 2 ^ 64 - 1

/-- An entry of the adjacency list (graph.rs `struct Edge`). -/
structure Edge where
  node : ℕ
  cost : ℕ
deriving DecidableEq, Repr

/-- Adjacency-list graph (graph.rs `struct Graph`). -/
structure Graph where
  edges : List (List Edge)
deriving DecidableEq, Repr

/-- Priority-queue entry (graph.rs `struct State`); the reversed `Ord`
makes the `BinaryHeap` a min-queue on `cost`. -/
structure State where
  cost : ℕ
  position : ℕ
  path : List ℕ
deriving DecidableEq, Repr

namespace Graph

/-- graph.rs `Graph::new`. -/
def new : Graph := ⟨[]⟩

/-- graph.rs `Graph::add_node`: appends an empty adjacency list, returns its index. -/
def add_node (g : Graph) : Graph × ℕ :=
  (⟨g.edges ++ [[]]⟩, g.edges.length)

/-- graph.rs `Graph::add_edge`.  The source asserts `source`/`target` are in
range; all callers go through indices allocated by `add_node`, so the
assertions cannot fire and the out-of-range case is irrelevant here. -/
def add_edge (g : Graph) (source target : ℕ) (weight : Option ℕ) (directed : Bool) : Graph :=
  let weight := weight.getD 1
  let es := listModify g.edges source (fun l => l ++ [⟨target, weight⟩])
  if directed then ⟨es⟩
  else ⟨listModify es target (fun l => l ++ [⟨source, weight⟩])⟩

/-- Adjacency list of node `u` (Rust `self.edges[position]`, always in range
at its use sites). -/
def edgesAt (g : Graph) (u : ℕ) : List Edge := g.edges.getD u []

/-- `BinaryHeap::pop` on the reversed order: remove a minimal-cost entry.
Ties are broken arbitrarily by the heap; this model takes the leftmost. -/
def popMin : List State → Option (State × List State)
  | [] => none
  | s :: rest =>
    match popMin rest with
    | none => some (s, [])
    | some (m, rest') => if s.cost ≤ m.cost then some (s, rest) else some (m, s :: rest')

/-- The inner `for` loop of `find_shortest_path`: relax every edge of the
popped node, updating the cost table and pushing improved entries. -/
def relaxList (cur : ℕ) (path : List ℕ) :
    List Edge → List (ℕ × List ℕ) → List State → List (ℕ × List ℕ) × List State
  | [], c, q => (c, q)
  | e :: es, c, q =>
    let new_cost := cur + e.cost
    if new_cost < (c.getD e.node (USIZE_MAX, [])).1 then
      let path_vec := path ++ [e.node]
      relaxList cur path es (c.set e.node (new_cost, path_vec)) (⟨new_cost, e.node, path_vec⟩ :: q)
    else
      relaxList cur path es c q

/-- The `while let Some(State {..}) = queue.pop()` loop of
`find_shortest_path`, with explicit fuel (see `dijkstraFuel`). -/
def dijkstraLoop (g : Graph) : ℕ → List (ℕ × List ℕ) → List State → List (ℕ × List ℕ)
  | 0, c, _ => c
  | fuel + 1, c, q =>
    match popMin q with
    | none => c
    | some (s, rest) =>
      if (c.getD s.position (USIZE_MAX, [])).1 < s.cost then
        dijkstraLoop g fuel c rest
      else
        let p := relaxList s.cost s.path (g.edgesAt s.position) c rest
        dijkstraLoop g fuel p.1 p.2

/-- Total number of adjacency entries of `g`. -/
def totalEdges (g : Graph) : ℕ := (g.edges.map List.length).sum

/-- Sum of all edge costs of `g`. -/
def totalCost (g : Graph) : ℕ := (g.edges.map (fun l => (l.map Edge.cost).sum)).sum

/-- Fuel that provably bounds the number of iterations of the Rust loop:
every push strictly decreases a recorded cost to the cost of a new simple
path, so the number of pushes is bounded by the number of (simple path,
cost choice) pairs. -/
def dijkstraFuel (g : Graph) : ℕ :=
  let n := g.edges.length
  n * (2 ^ n * n.factorial * (g.totalEdges + 1) ^ n) + 2

/-- graph.rs `Graph::find_shortest_path` (Dijkstra with full-path
reconstruction and lazy deletion). -/
def find_shortest_path (g : Graph) (source target : ℕ) : Option (List ℕ) :=
  let n := g.edges.length
  let cost0 := (List.replicate n (USIZE_MAX, ([] : List ℕ))).set source (0, [source])
  let final := dijkstraLoop g (dijkstraFuel g) cost0 [⟨0, source, [source]⟩]
  let path_vec := (final.getD target (USIZE_MAX, [])).2
  if path_vec.isEmpty then none else some path_vec

end Graph

/-! ## graph.rs : `LabeledGraph` -/

/-- graph.rs `struct Node`: a (station, line) pair. -/
structure Node where
  station : Str
  line : Str
deriving DecidableEq, Repr

instance : Inhabited Node := ⟨⟨[], []⟩⟩

/-- graph.rs `struct LabeledGraph`: bijective labelling of graph indices. -/
structure LabeledGraph where
  labels : List (Node × ℕ)
  indices : List Node
  graph : Graph
deriving DecidableEq, Repr

namespace LabeledGraph

/-- graph.rs `LabeledGraph::new`. -/
def new : LabeledGraph := ⟨[], [], Graph.new⟩

/-- graph.rs `LabeledGraph::add_node_if_not_exists`. -/
def add_node_if_not_exists (lg : LabeledGraph) (key : Node) : LabeledGraph :=
  if (assocGet key lg.labels).isSome then lg
  else
    let (g, index) := lg.graph.add_node
    ⟨lg.labels ++ [(key, index)], lg.indices ++ [key], g⟩

/-- graph.rs `LabeledGraph::add_edge`. -/
def add_edge (lg : LabeledGraph) (source target : Node) (weight : Option ℕ)
    (directed : Bool) : LabeledGraph :=
  let lg := lg.add_node_if_not_exists source
  let lg := lg.add_node_if_not_exists target
  let source_idx := (assocGet source lg.labels).getD 0
  let target_idx := (assocGet target lg.labels).getD 0
  { lg with graph := lg.graph.add_edge source_idx target_idx weight directed }

/-- graph.rs `LabeledGraph::find_shortest_path`. -/
def find_shortest_path (lg : LabeledGraph) (source target : Node) : Option (List Node) :=
  if (assocGet source lg.labels).isNone || (assocGet target lg.labels).isNone then none
  else
    let source_idx := (assocGet source lg.labels).getD 0
    let target_idx := (assocGet target lg.labels).getD 0
    match lg.graph.find_shortest_path source_idx target_idx with
    | some result => some (result.map (fun n => lg.indices.getD n default))
    | none => none

end LabeledGraph

/-! ## t.rs : enums and the `T` structure -/

/-- t.rs `enum TStep`. -/
inductive TStep where
  | Station (station line : Str)
  | Switch (lineA lineB : Str)
  | Ensure (line : Str)
deriving DecidableEq, Repr

/-- t.rs `enum TQueryResult`. -/
inductive TQueryResult where
  | TOk (steps : List TStep)
  | DisambiguateStart (suggestions : List Str)
  | DisambiguateDestination (suggestions : List Str)
  | NoSuchStart
  | NoSuchDest
  | DisabledStart (station : Str)
  | DisabledDest (station : Str)
  | NoSuchPath
deriving DecidableEq, Repr

/-- t.rs `enum TOperationResult`. -/
inductive TOperationResult where
  | Successful
  | DisambiguateOp (suggestions : List Str)
  | NoSuchStationOp
deriving DecidableEq, Repr

/-- t.rs `enum DisambiguationResult`. -/
inductive DisambiguationResult where
  | Station (station : Str)
  | Suggestions (suggestions : List Str)
deriving DecidableEq, Repr

/-- t.rs `TRANSFER_COST`. -/
def TRANSFER_COST : Option ℕ := some 2

/-- t.rs `NO_COST`. -/
def NO_COST : Option ℕ := some 0

/-- t.rs `START_NODE_LABEL`. -/
def START_NODE_LABEL : Str := "start_node".data

/-- t.rs `END_NODE_LABEL`. -/
def END_NODE_LABEL : Str := "end_node".data

/-- t.rs `struct T`.  `source_data`, `connections`, `stations` and `disabled`
are hash containers in the source; here they are lists fixing one iteration
order. -/
structure T where
  graph : LabeledGraph
  source_data : List (Str × List Str)
  connections : List (Str × Str × Option Str)
  stations : List (Str × List Node)
  disabled : List Str
deriving DecidableEq, Repr

namespace T

/-- t.rs `T::new`. -/
def new : T := ⟨LabeledGraph.new, [], [], [], []⟩

/-- One station of `T::rebuild_lines`' inner loop: skip it if disabled,
otherwise register its per-line node, link it to the other lines' nodes at
the same station with `TRANSFER_COST` and to the previous surviving station
of the line with default cost. -/
def rebuild_line_step (rail_line : Str) (disabled : List Str)
    (acc : List (Str × List Node) × LabeledGraph × Option Node) (station_name : Str) :
    List (Str × List Node) × LabeledGraph × Option Node :=
  let (stations, graph, prev_node) := acc
  if station_name ∈ disabled then (stations, graph, prev_node)
  else
    let this_node : Node := ⟨station_name, rail_line⟩
    let stations :=
      if (assocGet station_name stations).isSome then stations
      else stations ++ [(station_name, [])]
    let node_vec := (assocGet station_name stations).getD []
    let graph := node_vec.foldl (fun g ex => g.add_edge ex this_node TRANSFER_COST false) graph
    let stations := assocSet station_name (node_vec ++ [this_node]) stations
    let graph :=
      match prev_node with
      | some n => graph.add_edge n this_node none false
      | none => graph
    (stations, graph, some this_node)

/-- One line of `T::rebuild_lines`' outer loop: rebuild all of this line's
stations, starting with no previous node. -/
def rebuild_one_line (disabled : List Str) (acc : List (Str × List Node) × LabeledGraph)
    (pr : Str × List Str) : List (Str × List Node) × LabeledGraph :=
  let r := pr.2.foldl (rebuild_line_step pr.1 disabled) (acc.1, acc.2, none)
  (r.1, r.2.1)

/-- t.rs `T::rebuild_lines`. -/
def rebuild_lines (st : T) : T :=
  let r := st.source_data.foldl (rebuild_one_line st.disabled) (st.stations, st.graph)
  { st with stations := r.1, graph := r.2 }

/-- t.rs `T::rebuild_connections`.  NOTE: the source's `return` statements
exit the whole function, not just the current rule; the embedding mirrors
that by returning the graph built so far and dropping the remaining rules. -/
def rebuild_connections_list (source_data : List (Str × List Str))
    (stations : List (Str × List Node)) (disabled : List Str) :
    List (Str × Str × Option Str) → LabeledGraph → LabeledGraph
  | [], graph => graph
  | (line_one_name, line_two_name, fallback) :: rest, graph =>
    let line_one := (assocGet line_one_name source_data).getD []
    match line_one.find? (fun station => !(station ∈ disabled : Bool)) with
    | none => graph
    | some station_one =>
      let line_two := (assocGet line_two_name source_data).getD []
      let station_two? :=
        match line_two.reverse.find? (fun station => !(station ∈ disabled : Bool)) with
        | some s => some s
        | none =>
          match fallback with
          | none => none
          | some fback =>
            match assocGet fback source_data with
            | none => none
            | some fallback_line =>
              fallback_line.reverse.find? (fun station => !(station ∈ disabled : Bool))
      match station_two? with
      | none => graph
      | some station_two =>
        let node_vec_one := (assocGet station_one stations).getD []
        let node_vec_two := (assocGet station_two stations).getD []
        let graph := node_vec_one.foldl
          (fun g n1 => node_vec_two.foldl
            (fun g' n2 => g'.add_edge n1 n2 TRANSFER_COST false) g)
          graph
        rebuild_connections_list source_data stations disabled rest graph

/-- t.rs `T::rebuild_connections` applied to the whole connection set. -/
def rebuild_connections (st : T) : T :=
  { st with graph :=
      rebuild_connections_list st.source_data st.stations st.disabled st.connections st.graph }

/-- t.rs `T::add_unbiased_nodes`: the body of the iteration over `stations`,
threading the graph. -/
def add_unbiased_list : List (Str × List Node) → LabeledGraph →
    List (Str × List Node) × LabeledGraph
  | [], graph => ([], graph)
  | (station, node_vec) :: rest, graph =>
    if node_vec.length > 1 then
      let start_node : Node := ⟨station, START_NODE_LABEL⟩
      let end_node : Node := ⟨station, END_NODE_LABEL⟩
      let graph := node_vec.foldl
        (fun g node => (g.add_edge start_node node NO_COST true).add_edge node end_node NO_COST true)
        graph
      let r := add_unbiased_list rest graph
      ((station, node_vec ++ [start_node, end_node]) :: r.1, r.2)
    else
      let r := add_unbiased_list rest graph
      ((station, node_vec) :: r.1, r.2)

/-- t.rs `T::add_unbiased_nodes`. -/
def add_unbiased_nodes (st : T) : T :=
  let r := add_unbiased_list st.stations st.graph
  { st with stations := r.1, graph := r.2 }

/-- t.rs `T::rebuild_graph`: reset the derived data, then rebuild lines,
connections and unbiased endpoint nodes. -/
def rebuild_graph (st : T) : T :=
  add_unbiased_nodes (rebuild_connections (rebuild_lines
    { st with stations := [], graph := LabeledGraph.new }))

/-- The name pool searched by disambiguation:
`self.stations.keys().chain(self.disabled.iter())`. -/
def allNames (st : T) : List Str := st.stations.map Prod.fst ++ st.disabled

/-- t.rs `T::disambiguate_station`. -/
def disambiguate_station (st : T) (station : Str) : DisambiguationResult :=
  let ret_vec := (st.allNames).filter (fun maybe_match => strContains maybe_match station)
  match ret_vec with
  | [m] => .Station m
  | _ => .Suggestions (sortStr ret_vec)

/-- t.rs `T::modify_station`. -/
def modify_station (st : T) (station : Str) (enable : Bool) : TOperationResult × T :=
  match st.disambiguate_station station with
  | .Suggestions val =>
    if val.isEmpty then (.NoSuchStationOp, st) else (.DisambiguateOp val, st)
  | .Station station_string =>
    if xor enable (decide (station_string ∈ st.disabled)) then (.Successful, st)
    else
      let st :=
        if enable then { st with disabled := st.disabled.erase station_string }
        else { st with disabled := hsInsert station_string st.disabled }
      (.Successful, st.rebuild_graph)

/-- t.rs `T::enable_station`. -/
def enable_station (st : T) (station : Str) : TOperationResult × T :=
  st.modify_station station true

/-- t.rs `T::disable_station`. -/
def disable_station (st : T) (station : Str) : TOperationResult × T :=
  st.modify_station station false

end T

/-! ## t.rs : the path interpreter -/

/-- t.rs `process_nodes`. -/
def process_nodes (steps : List TStep) (prev_node node : Node) : List TStep :=
  if prev_node.line ≠ node.line ∧ prev_node.station ≠ node.station then
    steps ++ [.Ensure node.line, .Station node.station node.line]
  else if prev_node.line ≠ node.line then
    steps ++ [.Switch prev_node.line node.line]
  else
    steps ++ [.Station node.station node.line]

/-- t.rs `process_first_nodes`. -/
def process_first_nodes (steps : List TStep) (prev_node node : Node) : List TStep :=
  if prev_node.station = node.station then
    steps ++ [.Station node.station node.line]
  else
    process_nodes (steps ++ [.Station prev_node.station prev_node.line]) prev_node node

/-- t.rs `prune_end`: drop a trailing `Switch`/`Ensure`.  The source pops
unconditionally (`unwrap`), so the empty case cannot occur at its call site. -/
def prune_end (steps : List TStep) : List TStep :=
  match steps.getLast? with
  | some (.Station _ _) => steps
  | some _ => steps.dropLast
  | none => []

/-- The `for node in path_iter` loop of t.rs `interpret_path`. -/
def interpretLoop (steps : List TStep) (prev : Node) : List Node → List TStep
  | [] => steps
  | node :: rest => interpretLoop (process_nodes steps prev node) node rest

/-- t.rs `interpret_path`.  The source asserts `path.len() > 0`; the empty
case is unreachable and maps to `[]` here. -/
def interpret_path (path : List Node) : List TStep :=
  match path with
  | [] => []
  | [_] => []
  | first_node :: prev_node :: rest =>
    prune_end (interpretLoop (process_first_nodes [] first_node prev_node) prev_node rest)

/-- t.rs `T::find_path`. -/
def T.find_path (st : T) (start dest : Str) : TQueryResult :=
  match st.disambiguate_station start with
  | .Suggestions val =>
    if val.isEmpty then .NoSuchStart else .DisambiguateStart val
  | .Station start' =>
  match st.disambiguate_station dest with
  | .Suggestions val =>
    if val.isEmpty then .NoSuchDest else .DisambiguateDestination val
  | .Station dest' =>
  match assocGet start' st.stations with
  | none => .DisabledStart start'
  | some v =>
    let start_node := if v.length = 1 then v.getD 0 default else v.getD (v.length - 2) default
    match assocGet dest' st.stations with
    | none => .DisabledDest dest'
    | some w =>
      let dest_node := if w.length = 1 then w.getD 0 default else w.getD (w.length - 1) default
      match st.graph.find_shortest_path start_node dest_node with
      | some path => .TOk (interpret_path path)
      | none => .NoSuchPath

/-! ## String and sorting lemmas -/

theorem strHasPre_iff (p s : Str) : strHasPre p s = true ↔ ∃ r, s = p ++ r := by
  induction p generalizing s with
  | nil => simp [strHasPre]
  | cons a as ih =>
    cases s with
    | nil => simp [strHasPre]
    | cons b bs =>
      simp only [strHasPre, Bool.and_eq_true, decide_eq_true_eq, ih]
      constructor
      · rintro ⟨rfl, r, rfl⟩; exact ⟨r, rfl⟩
      · rintro ⟨r, h⟩
        injection h with h1 h2
        exact ⟨h1.symm, r, h2⟩

theorem strContains_iff (hay needle : Str) :
    strContains hay needle = true ↔ ∃ l r, hay = l ++ needle ++ r := by
  induction hay with
  | nil =>
    simp only [strContains, strHasPre_iff]
    constructor
    · rintro ⟨r, h⟩; exact ⟨[], r, h⟩
    · rintro ⟨l, r, h⟩
      cases l with
      | nil => exact ⟨r, h⟩
      | cons x xs => simp at h
  | cons c rest ih =>
    simp only [strContains, Bool.or_eq_true, strHasPre_iff, ih]
    constructor
    · rintro (⟨r, h⟩ | ⟨l, r, h⟩)
      · exact ⟨[], r, h⟩
      · exact ⟨c :: l, r, by simp [h]⟩
    · rintro ⟨l, r, h⟩
      cases l with
      | nil => exact Or.inl ⟨r, h⟩
      | cons x xs =>
        injection h with h1 h2
        exact Or.inr ⟨xs, r, h2⟩

theorem strContains_refl (s : Str) : strContains s s = true :=
  (strContains_iff s s).mpr ⟨[], [], by simp⟩

theorem lexLe_total (a b : Str) : lexLe a b = true ∨ lexLe b a = true := by
  induction a generalizing b with
  | nil => left; rfl
  | cons x xs ih =>
    cases b with
    | nil => right; rfl
    | cons y ys =>
      by_cases h : x = y
      · subst h
        simpa [lexLe] using ih ys
      · rcases lt_or_gt_of_ne h with hlt | hgt
        · left; simp [lexLe, h, hlt]
        · right; simp [lexLe, Ne.symm h, hgt]

theorem lexLe_trans {a b c : Str} (h1 : lexLe a b = true) (h2 : lexLe b c = true) :
    lexLe a c = true := by
  induction a generalizing b c with
  | nil => rfl
  | cons x xs ih =>
    cases b with
    | nil => simp [lexLe] at h1
    | cons y ys =>
      cases c with
      | nil => simp [lexLe] at h2
      | cons z zs =>
        by_cases hxy : x = y
        · subst hxy
          by_cases hyz : x = z
          · subst hyz
            simp only [lexLe, if_pos rfl] at h1 h2 ⊢
            exact ih h1 h2
          · simp only [lexLe, if_pos rfl] at h1
            simpa [lexLe, hyz] using h2
        · by_cases hyz : y = z
          · subst hyz
            simpa [lexLe, hxy] using h1
          · simp only [lexLe, if_neg hxy, decide_eq_true_eq] at h1
            simp only [lexLe, if_neg hyz, decide_eq_true_eq] at h2
            have : x < z := lt_trans h1 h2
            simp [lexLe, ne_of_lt this, this]

/-- Sortedness with respect to the lexicographic string order. -/
def SortedStr (l : List Str) : Prop := l.Pairwise (fun a b => lexLe a b = true)

theorem sortedInsert_perm (x : Str) (l : List Str) :
    List.Perm (sortedInsert x l) (x :: l) := by
  induction l with
  | nil => rfl
  | cons y ys ih =>
    simp only [sortedInsert]
    split
    · rfl
    · exact ((ih.cons y).trans (List.Perm.swap x y ys))

theorem sortedInsert_sorted (x : Str) {l : List Str} (h : SortedStr l) :
    SortedStr (sortedInsert x l) := by
  induction l with
  | nil => simp [sortedInsert, SortedStr]
  | cons y ys ih =>
    rcases h with - | ⟨hy, hys⟩
    simp only [sortedInsert]
    split
    · rename_i hxy
      refine List.Pairwise.cons ?_ (List.Pairwise.cons hy hys)
      intro b hb
      rcases hb with _ | hb
      · exact hxy
      · exact lexLe_trans hxy (hy _ (by assumption))
    · rename_i hxy
      have hyx : lexLe y x = true := (lexLe_total x y).resolve_left (by simpa using hxy)
      refine List.Pairwise.cons ?_ (ih hys)
      intro b hb
      rcases List.mem_cons.mp ((sortedInsert_perm x ys).mem_iff.mp hb) with hbx | hb'
      · rw [hbx]; exact hyx
      · exact hy _ hb'

theorem sortStr_perm (l : List Str) : List.Perm (sortStr l) l := by
  induction l with
  | nil => rfl
  | cons x xs ih => exact (sortedInsert_perm x (sortStr xs)).trans (ih.cons x)

theorem sortStr_sorted (l : List Str) : SortedStr (sortStr l) := by
  induction l with
  | nil => exact List.Pairwise.nil
  | cons x xs ih => exact sortedInsert_sorted x ih

/-! ## Disambiguation lemmas -/

/-- The list of names matching a query, in iteration order
(`ret_vec` of `disambiguate_station`). -/
def matchList (st : T) (s : Str) : List Str :=
  st.allNames.filter (fun maybe_match => strContains maybe_match s)

theorem disamb_station_iff (st : T) (s m : Str) :
    st.disambiguate_station s = .Station m ↔ matchList st s = [m] := by
  unfold T.disambiguate_station
  rcases hv : matchList st s with - | ⟨x, l⟩
  · rw [show st.allNames.filter (fun mm => strContains mm s) = [] from hv]; simp
  · cases l with
    | nil =>
      rw [show st.allNames.filter (fun mm => strContains mm s) = [x] from hv]
      simp
    | cons y rest =>
      rw [show st.allNames.filter (fun mm => strContains mm s) = x :: y :: rest from hv]
      simp

theorem disamb_suggestions_iff (st : T) (s : Str) (l : List Str) :
    st.disambiguate_station s = .Suggestions l ↔
      (∀ m, matchList st s ≠ [m]) ∧ l = sortStr (matchList st s) := by
  unfold T.disambiguate_station
  rcases hv : matchList st s with - | ⟨x, l'⟩
  · rw [show st.allNames.filter (fun mm => strContains mm s) = [] from hv]
    simp [eq_comm]
  · cases l' with
    | nil =>
      rw [show st.allNames.filter (fun mm => strContains mm s) = [x] from hv]
      simp
    | cons y rest =>
      rw [show st.allNames.filter (fun mm => strContains mm s) = x :: y :: rest from hv]
      simp [eq_comm]

theorem eq_singleton_of_mem_all_eq {α : Type _} {l : List α} {a : α}
    (h1 : a ∈ l) (h2 : ∀ x ∈ l, x = a) (h3 : l.Nodup) : l = [a] := by
  cases l with
  | nil => cases h1
  | cons x rest =>
    have hx : x = a := h2 x (List.mem_cons_self x rest)
    subst hx
    rcases h3 with - | ⟨hnotin, -⟩
    cases rest with
    | nil => rfl
    | cons y rest' =>
      have hy : y = x := h2 y (by simp)
      exact absurd (hy ▸ List.mem_cons_self y rest') (by simpa [hy] using hnotin y (by simp))

/-! ## Example networks used by witnesses and counterexamples -/

/-- A small loaded network: two lines `"r"` and `"b"` sharing the transfer
station `"pp"`. -/
def egT : T :=
  T.rebuild_graph { T.new with
    source_data := [("r".data, ["aa".data, "pp".data, "cc".data]),
                    ("b".data, ["dd".data, "pp".data, "ee".data])] }

/-- Network exhibiting the early-return bug of `rebuild_connections`: two
connection rules, and the first rule's `line_a` (`"A"`) is fully disabled. -/
def stC2 : T :=
  { T.new with
    source_data := [("A".data, ["a1".data]), ("B".data, ["b1".data]),
                    ("C".data, ["c1".data]), ("D".data, ["d1".data])],
    connections := [("A".data, "B".data, none), ("C".data, "D".data, none)],
    disabled := ["a1".data] }

/-- Same network as `stC2` but with only the second connection rule, showing
what processing that rule alone produces. -/
def stC2solo : T := { stC2 with connections := [("C".data, "D".data, none)] }

/-- A loaded network in which the full station name `"X"` is a substring of
the other station name `"XY"`. -/
def stC8 : T :=
  T.rebuild_graph { T.new with source_data := [("L".data, ["X".data, "XY".data])] }

/-! ## Claim C9 -/

/-- Claim C9: `LabeledGraph::find_shortest_path` returns `None` immediately
when either label has never been registered in the graph — the same value
used to report that no route exists between registered labels. -/
theorem claim_C9 (lg : LabeledGraph) (s t : Node)
    (h : assocGet s lg.labels = none ∨ assocGet t lg.labels = none) :
    lg.find_shortest_path s t = none := by
  unfold LabeledGraph.find_shortest_path
  rcases h with h | h <;> simp [h]

/-- Witness for C9 at a concrete graph and labels. -/
theorem claim_C9_witness :
    LabeledGraph.new.find_shortest_path ⟨"a".data, "x".data⟩ ⟨"b".data, "y".data⟩ = none :=
  claim_C9 _ _ _ (Or.inl rfl)

/-! ## Claim C6 -/

/-- Claim C6: enabling a station that is not disabled, or disabling a station
that is already disabled, returns `Successful` and leaves the entire network
state unchanged (no rebuild happens). -/
theorem claim_C6 (st : T) (s m : Str) (h : st.disambiguate_station s = .Station m) :
    (m ∉ st.disabled → st.enable_station s = (.Successful, st)) ∧
    (m ∈ st.disabled → st.disable_station s = (.Successful, st)) := by
  constructor <;> intro hm
  · unfold T.enable_station T.modify_station
    rw [h]
    simp [hm]
  · unfold T.disable_station T.modify_station
    rw [h]
    simp [hm]

/-- Witness for C6: enabling the enabled station `"aa"` of `egT` is a no-op. -/
theorem claim_C6_witness : egT.enable_station "aa".data = (.Successful, egT) :=
  (claim_C6 egT "aa".data "aa".data (by decide)).1 (by decide)

/-! ## Claim C2 (code bug: `return` instead of `continue`) -/

/-- Claim C2 evaluation at the failing input: with connection rules
`[(A,B,-), (C,D,-)]` and line `A` fully disabled, the source's `return`
aborts `rebuild_connections` entirely, so the second rule's transfer edge
`c1–d1` is never added (left conjunct); processing the remaining rule alone
would have added it (right conjunct). -/
theorem claim_C2_divergence :
    (stC2.rebuild_graph).graph.find_shortest_path ⟨"c1".data, "C".data⟩ ⟨"d1".data, "D".data⟩
      = none ∧
    (stC2solo.rebuild_graph).graph.find_shortest_path ⟨"c1".data, "C".data⟩ ⟨"d1".data, "D".data⟩
      = some [⟨"c1".data, "C".data⟩, ⟨"d1".data, "D".data⟩] := by
  constructor <;> decide

/-! ## Claim C8 -/

/-- Counterexample to C8 as stated: `"X"` is a known station name of the
loaded network `stC8`, yet disambiguating the exact full name `"X"` does not
return `Station "X"` — the other name `"XY"` also matches the substring
test, so a suggestion list is returned instead. -/
theorem claim_C8_cex :
    "X".data ∈ stC8.allNames ∧
    stC8.disambiguate_station "X".data = .Suggestions ["X".data, "XY".data] := by
  constructor <;> decide

/-- Claim C8 (amended): disambiguating an exact full station name `n`
returns `Station n` provided no other known name contains `n` as a
substring (name-key uniqueness alone does not guarantee this). -/
theorem claim_C8_amended (st : T) (n : Str) (hnd : st.allNames.Nodup)
    (hmem : n ∈ st.allNames)
    (huniq : ∀ x ∈ st.allNames, strContains x n = true → x = n) :
    st.disambiguate_station n = .Station n := by
  refine (disamb_station_iff st n n).mpr ?_
  refine eq_singleton_of_mem_all_eq ?_ ?_ (hnd.filter _)
  · exact List.mem_filter.mpr ⟨hmem, strContains_refl n⟩
  · intro x hx
    rcases List.mem_filter.mp hx with ⟨hx1, hx2⟩
    exact huniq x hx1 hx2

/-- Witness for the amended C8: `"XY"` is not a substring of any other name
of `stC8`, so its exact name disambiguates to itself. -/
theorem claim_C8_witness : stC8.disambiguate_station "XY".data = .Station "XY".data :=
  claim_C8_amended stC8 "XY".data (by decide) (by decide) (by decide)

/-! ## Claim C5 -/

/-- Claim C5: disambiguation searches the union of enabled and disabled
station names for case-sensitive substring matches; it returns `Station m`
exactly when `m` is the unique match, and otherwise returns the
alphabetically sorted, duplicate-free list of all matching names. -/
theorem claim_C5 (st : T) (s : Str) (hnd : st.allNames.Nodup) :
    (∀ m, st.disambiguate_station s = .Station m ↔
       (m ∈ st.allNames ∧ strContains m s = true ∧
        ∀ x ∈ st.allNames, strContains x s = true → x = m)) ∧
    (∀ l, st.disambiguate_station s = .Suggestions l →
       (¬ ∃ m, m ∈ st.allNames ∧ strContains m s = true ∧
          ∀ x ∈ st.allNames, strContains x s = true → x = m) ∧
       SortedStr l ∧ l.Nodup ∧
       (∀ x, x ∈ l ↔ x ∈ st.allNames ∧ strContains x s = true)) := by
  have hfil : (matchList st s).Nodup := hnd.filter _
  have hsingle : ∀ m : Str,
      (m ∈ st.allNames ∧ strContains m s = true ∧
        ∀ x ∈ st.allNames, strContains x s = true → x = m) ↔ matchList st s = [m] := by
    intro m
    constructor
    · rintro ⟨h1, h2, h3⟩
      refine eq_singleton_of_mem_all_eq (List.mem_filter.mpr ⟨h1, h2⟩) ?_ hfil
      intro x hx
      rcases List.mem_filter.mp hx with ⟨hx1, hx2⟩
      exact h3 x hx1 hx2
    · intro h
      have hm : m ∈ matchList st s := by rw [h]; simp
      rcases List.mem_filter.mp hm with ⟨h1, h2⟩
      refine ⟨h1, h2, ?_⟩
      intro x hx1 hx2
      have : x ∈ matchList st s := List.mem_filter.mpr ⟨hx1, hx2⟩
      rw [h] at this
      simpa using this
  constructor
  · intro m
    rw [disamb_station_iff, hsingle]
  · intro l hl
    rcases (disamb_suggestions_iff st s l).mp hl with ⟨hnotone, rfl⟩
    refine ⟨?_, sortStr_sorted _, (sortStr_perm _).nodup_iff.mpr hfil, ?_⟩
    · rintro ⟨m, hm⟩
      exact hnotone m ((hsingle m).mp hm)
    · intro x
      rw [(sortStr_perm _).mem_iff]
      exact List.mem_filter

/-! ## Claim C3 : path interpreter endpoint shape -/

/-- The steps that one `process_nodes` call appends for the pair `(prev, node)`. -/
def stepBlock (prev node : Node) : List TStep :=
  if prev.line ≠ node.line ∧ prev.station ≠ node.station then
    [.Ensure node.line, .Station node.station node.line]
  else if prev.line ≠ node.line then
    [.Switch prev.line node.line]
  else
    [.Station node.station node.line]

theorem process_nodes_eq (steps : List TStep) (p n : Node) :
    process_nodes steps p n = steps ++ stepBlock p n := by
  unfold process_nodes stepBlock
  split_ifs <;> rfl

/-- Concatenation of the step blocks of all consecutive pairs. -/
def blocks : Node → List Node → List TStep
  | _, [] => []
  | p, n :: rest => stepBlock p n ++ blocks n rest

theorem interpretLoop_eq (steps : List TStep) (p : Node) (l : List Node) :
    interpretLoop steps p l = steps ++ blocks p l := by
  induction l generalizing steps p with
  | nil => simp [interpretLoop, blocks]
  | cons n rest ih => simp [interpretLoop, blocks, ih, process_nodes_eq]

theorem stepBlock_ne_nil (p n : Node) : stepBlock p n ≠ [] := by
  unfold stepBlock; split_ifs <;> simp

/-- Is the pair a same-station line change?  (The only pair shape for which
`process_nodes` emits a `Switch`.) -/
def switchyB (a b : Node) : Bool := a.station = b.station && !(a.line = b.line)

theorem stepBlock_getLast (p n : Node) :
    (switchyB p n = true ∧ stepBlock p n = [.Switch p.line n.line]) ∨
    (switchyB p n = false ∧ (stepBlock p n).getLast? = some (.Station n.station n.line)) := by
  unfold stepBlock switchyB
  by_cases h1 : p.line = n.line
  · right; simp [h1]
  · by_cases h2 : p.station = n.station
    · left; simp [h1, h2]
    · right; simp [h1, h2]

/-- The last node of `p :: l`. -/
def lastN (p : Node) : List Node → Node
  | [] => p
  | n :: rest => lastN n rest

theorem lastN_snoc (p x : Node) (l : List Node) : lastN p (l ++ [x]) = x := by
  induction l generalizing p with
  | nil => rfl
  | cons n rest ih => exact ih n

theorem lastN_decomp (p : Node) (l : List Node) : ∃ q, p :: l = q ++ [lastN p l] := by
  induction l generalizing p with
  | nil => exact ⟨[], rfl⟩
  | cons n rest ih =>
    rcases ih n with ⟨q, hq⟩
    exact ⟨p :: q, by simp [lastN, hq]⟩

theorem blocks_snoc (l : List Node) (p b : Node) :
    blocks p (l ++ [b]) = blocks p l ++ stepBlock (lastN p l) b := by
  induction l generalizing p with
  | nil => simp [blocks, lastN]
  | cons n rest ih => simp [blocks, lastN, ih]

theorem pfn_facts (f p : Node) :
    process_first_nodes [] f p ≠ [] ∧
    (∃ s l, (process_first_nodes [] f p).head? = some (.Station s l)) ∧
    (∃ s l, (process_first_nodes [] f p).getLast? = some (.Station s l)) := by
  unfold process_first_nodes
  by_cases h : f.station = p.station
  · refine ⟨by simp [h], ⟨p.station, p.line, ?_⟩, ⟨p.station, p.line, ?_⟩⟩ <;> simp [h]
  · rw [process_nodes_eq]
    unfold stepBlock
    by_cases h1 : f.line = p.line
    · refine ⟨by simp [h, h1], ⟨f.station, f.line, ?_⟩, ⟨p.station, p.line, ?_⟩⟩ <;>
        simp [h, h1]
    · refine ⟨by simp [h, h1], ⟨f.station, f.line, ?_⟩, ⟨p.station, p.line, ?_⟩⟩ <;>
        simp [h, h1]

/-- Does the node path end with two consecutive same-station line changes?
This is exactly the degenerate shape for which a trailing `Switch` survives
`prune_end`. -/
def trailingDoubleSwitch (p : List Node) : Bool :=
  match p.reverse with
  | c :: b :: a :: _ :: _ => switchyB a b && switchyB b c
  | _ => false

theorem tds_spec {path q : List Node} {a b c : Node} (h : path = q ++ [a, b, c])
    (hq : q ≠ []) (hnd : trailingDoubleSwitch path = false) :
    (switchyB a b && switchyB b c) = false := by
  subst h
  unfold trailingDoubleSwitch at hnd
  have hq' : q.reverse ≠ [] := by simpa using hq
  rcases List.exists_cons_of_ne_nil hq' with ⟨y, ys, hrev⟩
  rw [List.reverse_append, hrev] at hnd
  simpa using hnd

theorem getLast?_append_right {α : Type _} {l₁ l₂ : List α} (h : l₂ ≠ []) :
    (l₁ ++ l₂).getLast? = l₂.getLast? :=
  List.getLast?_append_of_ne_nil l₁ h

theorem head?_append_left {α : Type _} {l₁ l₂ : List α} (h : l₁ ≠ []) :
    (l₁ ++ l₂).head? = l₁.head? := by
  cases l₁ with
  | nil => exact absurd rfl h
  | cons x xs => rfl

theorem prune_end_keep {L : List TStep} {s l : Str}
    (h : L.getLast? = some (.Station s l)) : prune_end L = L := by
  unfold prune_end
  rw [h]

theorem prune_end_drop {L : List TStep} {la lb : Str}
    (h : L.getLast? = some (.Switch la lb)) : prune_end L = L.dropLast := by
  unfold prune_end
  rw [h]

theorem prune_end_shape (L : List TStep) :
    prune_end L = L ∨ prune_end L = L.dropLast := by
  unfold prune_end
  rcases h : L.getLast? with _ | x
  · left
    rw [List.getLast?_eq_none_iff] at h
    rw [h]
  · cases x with
    | Ensure _ => right; rfl
    | Switch _ _ => right; rfl
    | Station _ _ => left; rfl

/-- Pruning a list that starts with a `Station` and has at least two elements
leaves it non-empty with the same head. -/
theorem prune_end_head {I T : List TStep} {s l : Str} (hini : I ≠ [])
    (hT : T ≠ []) (hhead : I.head? = some (.Station s l)) :
    prune_end (I ++ T) ≠ [] ∧ (prune_end (I ++ T)).head? = some (.Station s l) := by
  rcases I with _ | ⟨i0, I'⟩
  · exact absurd rfl hini
  · have hi0 : i0 = TStep.Station s l := by simpa using hhead
    subst hi0
    have htail : I' ++ T ≠ [] := by
      intro hcon
      rcases List.append_eq_nil.mp hcon with ⟨_, h2⟩
      exact hT h2
    rcases List.exists_cons_of_ne_nil htail with ⟨y, ys, hys⟩
    have hL : (TStep.Station s l :: I') ++ T = TStep.Station s l :: y :: ys := by
      rw [List.cons_append, hys]
    rw [hL]
    rcases prune_end_shape (TStep.Station s l :: y :: ys) with he | he <;> rw [he]
    · exact ⟨by simp, rfl⟩
    · rw [List.dropLast_cons₂]
      exact ⟨by simp, rfl⟩

/-- The interpreter's output on any path of length at least 2 is non-empty
and starts with a `Station` step, with no proviso on the path's tail. -/
theorem interpret_head (f p : Node) (rest : List Node) :
    interpret_path (f :: p :: rest) ≠ [] ∧
    (∃ s l, (interpret_path (f :: p :: rest)).head? = some (.Station s l)) := by
  have hI : interpret_path (f :: p :: rest) =
      prune_end (process_first_nodes [] f p ++ blocks p rest) := by
    show prune_end (interpretLoop (process_first_nodes [] f p) p rest) = _
    rw [interpretLoop_eq]
  rcases pfn_facts f p with ⟨hini, ⟨s0, l0, hhead⟩, ⟨s1, l1, hlast⟩⟩
  rcases rest.eq_nil_or_concat with rfl | ⟨rest', b, rfl⟩
  · rw [hI]
    simp only [blocks, List.append_nil]
    rw [prune_end_keep hlast]
    exact ⟨hini, s0, l0, hhead⟩
  · simp only [List.concat_eq_append] at hI ⊢
    rw [hI]
    have hT : blocks p (rest' ++ [b]) ≠ [] := by
      rw [blocks_snoc]
      intro hcon
      rcases List.append_eq_nil.mp hcon with ⟨_, h2⟩
      exact stepBlock_ne_nil _ _ h2
    obtain ⟨hne, hh⟩ := prune_end_head hini hT hhead
    exact ⟨hne, s0, l0, hh⟩

/-- Claim C3 (amended): for every node path of length at least 2 handed to
the path interpreter, the resulting step sequence is non-empty and its first
element is a `Station` (Ride) step; its last element is also a `Station`
step provided the path does not end with two consecutive same-station
line-change transitions. -/
theorem claim_C3_amended (path : List Node) (hlen : 2 ≤ path.length) :
    interpret_path path ≠ [] ∧
    (∃ s l, (interpret_path path).head? = some (.Station s l)) ∧
    (trailingDoubleSwitch path = false →
      ∃ s l, (interpret_path path).getLast? = some (.Station s l)) := by
  match path, hlen with
  | f :: p :: rest, _ =>
  obtain ⟨hne, hhd⟩ := interpret_head f p rest
  refine ⟨hne, hhd, ?_⟩
  intro hnd
  have hI : interpret_path (f :: p :: rest) =
      prune_end (process_first_nodes [] f p ++ blocks p rest) := by
    show prune_end (interpretLoop (process_first_nodes [] f p) p rest) = _
    rw [interpretLoop_eq]
  rcases pfn_facts f p with ⟨hini, ⟨s0, l0, hhead⟩, ⟨s1, l1, hlast⟩⟩
  rcases rest.eq_nil_or_concat with rfl | ⟨rest', b, rfl⟩
  · -- no further pairs: the list is just the initial segment, ending in Station
    rw [hI]
    simp only [blocks, List.append_nil]
    rw [prune_end_keep hlast]
    exact ⟨s1, l1, hlast⟩
  · simp only [List.concat_eq_append] at hnd hI ⊢
    rw [hI, blocks_snoc]
    rcases stepBlock_getLast (lastN p rest') b with ⟨hsw, hblk⟩ | ⟨hsw, hblk⟩
    · -- final pair is a same-station line change: a lone Switch is appended and pruned
      rw [hblk]
      have hL : (process_first_nodes [] f p ++ (blocks p rest' ++
          [TStep.Switch (lastN p rest').line b.line])).getLast? =
          some (TStep.Switch (lastN p rest').line b.line) := by
        rw [← List.append_assoc]
        exact getLast?_append_right (by simp)
      rw [prune_end_drop hL, ← List.append_assoc, List.dropLast_concat]
      -- now show the remaining list ends in a Station
      rcases rest'.eq_nil_or_concat with rfl | ⟨rest'', a2, rfl⟩
      · simp only [blocks, List.append_nil]
        exact ⟨s1, l1, hlast⟩
      · -- previous pair exists; by the no-double-switch hypothesis it is not switchy
        simp only [List.concat_eq_append] at hsw hnd ⊢
        have ha2 : lastN p (rest'' ++ [a2]) = a2 := lastN_snoc p a2 rest''
        rw [ha2] at hsw
        rcases lastN_decomp p rest'' with ⟨q', hq'⟩
        have hdecomp : f :: p :: (rest'' ++ [a2] ++ [b]) =
            (f :: q') ++ [lastN p rest'', a2, b] := by
          simp only [List.cons_append]
          rw [show p :: (rest'' ++ [a2] ++ [b]) = (p :: rest'') ++ [a2] ++ [b] by simp, hq']
          simp
        have hnotsw : switchyB (lastN p rest'') a2 = false := by
          have := tds_spec hdecomp (by simp) hnd
          rcases Bool.and_eq_false_iff.mp this with h' | h'
          · exact h'
          · exact absurd hsw (by simp [h'])
        rw [blocks_snoc]
        rcases stepBlock_getLast (lastN p rest'') a2 with ⟨hsw2, _⟩ | ⟨_, hblk2⟩
        · rw [hsw2] at hnotsw; cases hnotsw
        · have hLlast : (process_first_nodes [] f p ++ (blocks p rest'' ++
              stepBlock (lastN p rest'') a2)).getLast? =
              some (TStep.Station a2.station a2.line) := by
            rw [← List.append_assoc]
            rw [getLast?_append_right (stepBlock_ne_nil _ _)]
            exact hblk2
          exact ⟨a2.station, a2.line, hLlast⟩
    · -- final pair is not switchy: the list already ends in a Station
      have hLlast : (process_first_nodes [] f p ++ (blocks p rest' ++
          stepBlock (lastN p rest') b)).getLast? =
          some (TStep.Station b.station b.line) := by
        rw [← List.append_assoc, getLast?_append_right (stepBlock_ne_nil _ _)]
        exact hblk
      rw [prune_end_keep hLlast]
      exact ⟨b.station, b.line, hLlast⟩

/-- Counterexample to C3 as stated: for the length-4 node path below (which
ends with two consecutive same-station line changes) the interpreter's
output ends in a `Switch`, not a `Station`. -/
theorem claim_C3_cex :
    interpret_path [⟨"A".data, "1".data⟩, ⟨"B".data, "1".data⟩,
                    ⟨"B".data, "2".data⟩, ⟨"B".data, "3".data⟩] =
      [.Station "A".data "1".data, .Station "B".data "1".data,
       .Switch "1".data "2".data] := by decide

/-- Witness for the amended C3 at a concrete path ending in a single
same-station line change. -/
theorem claim_C3_witness :
    interpret_path [⟨"A".data, "1".data⟩, ⟨"B".data, "1".data⟩,
      ⟨"B".data, "2".data⟩] ≠ [] ∧
    (∃ s l, (interpret_path [⟨"A".data, "1".data⟩, ⟨"B".data, "1".data⟩,
      ⟨"B".data, "2".data⟩]).head? = some (.Station s l)) ∧
    (∃ s l, (interpret_path [⟨"A".data, "1".data⟩, ⟨"B".data, "1".data⟩,
      ⟨"B".data, "2".data⟩]).getLast? = some (.Station s l)) :=
  ⟨(claim_C3_amended [⟨"A".data, "1".data⟩, ⟨"B".data, "1".data⟩, ⟨"B".data, "2".data⟩]
      (by decide)).1,
   (claim_C3_amended [⟨"A".data, "1".data⟩, ⟨"B".data, "1".data⟩, ⟨"B".data, "2".data⟩]
      (by decide)).2.1,
   (claim_C3_amended [⟨"A".data, "1".data⟩, ⟨"B".data, "1".data⟩, ⟨"B".data, "2".data⟩]
      (by decide)).2.2 (by decide)⟩

/-- Witness for C5 at the concrete network `egT` and the empty query, which
matches every name: the suggestion list is the sorted list of all names. -/
theorem claim_C5_witness :
    SortedStr ["aa".data, "cc".data, "dd".data, "ee".data, "pp".data] ∧
    ("pp".data ∈ ["aa".data, "cc".data, "dd".data, "ee".data, "pp".data] ↔
      ("pp".data ∈ egT.allNames ∧ strContains "pp".data [] = true)) :=
  ⟨((claim_C5 egT [] (by decide)).2
      ["aa".data, "cc".data, "dd".data, "ee".data, "pp".data] (by decide)).2.1,
   ((claim_C5 egT [] (by decide)).2
      ["aa".data, "cc".data, "dd".data, "ee".data, "pp".data] (by decide)).2.2.2
     "pp".data⟩

/-! ## Association-list lemmas -/

theorem assocGet_eq_none {κ α : Type _} [DecidableEq κ] (k : κ) (l : List (κ × α)) :
    assocGet k l = none ↔ k ∉ l.map Prod.fst := by
  induction l with
  | nil => simp [assocGet]
  | cons pr rest ih =>
    obtain ⟨k', v⟩ := pr
    by_cases h : k' = k
    · subst h; simp [assocGet]
    · simp [assocGet, h, ih, Ne.symm h]

theorem assocGet_mem {κ α : Type _} [DecidableEq κ] {k : κ} {v : α} :
    ∀ {l : List (κ × α)}, assocGet k l = some v → (k, v) ∈ l := by
  intro l h
  induction l with
  | nil => simp [assocGet] at h
  | cons pr rest ih =>
    obtain ⟨k', w⟩ := pr
    by_cases hk : k' = k
    · subst hk
      rw [show assocGet k' ((k', w) :: rest) = some w from by simp [assocGet]] at h
      injection h with h
      subst h
      exact List.mem_cons_self _ _
    · simp only [assocGet, if_neg hk] at h
      exact List.mem_cons_of_mem _ (ih h)

theorem assocGet_append_of_not_mem {κ α : Type _} [DecidableEq κ] {k : κ}
    {l l₂ : List (κ × α)} (h : k ∉ l.map Prod.fst) :
    assocGet k (l ++ l₂) = assocGet k l₂ := by
  induction l with
  | nil => rfl
  | cons pr rest ih =>
    obtain ⟨k', v⟩ := pr
    simp only [List.map_cons, List.mem_cons] at h
    push_neg at h
    simpa [assocGet, Ne.symm h.1] using ih h.2

theorem assocSet_append_of_not_mem {κ α : Type _} [DecidableEq κ] {k : κ} (v : α)
    {l l₂ : List (κ × α)} (h : k ∉ l.map Prod.fst) :
    assocSet k v (l ++ l₂) = l ++ assocSet k v l₂ := by
  induction l with
  | nil => rfl
  | cons pr rest ih =>
    obtain ⟨k', w⟩ := pr
    simp only [List.map_cons, List.mem_cons] at h
    push_neg at h
    simpa [assocSet, Ne.symm h.1] using ih h.2

theorem assocSet_map_fst {κ α : Type _} [DecidableEq κ] {k : κ} (v : α)
    {l : List (κ × α)} (h : k ∈ l.map Prod.fst) :
    (assocSet k v l).map Prod.fst = l.map Prod.fst := by
  induction l with
  | nil => simp at h
  | cons pr rest ih =>
    obtain ⟨k', w⟩ := pr
    by_cases hk : k' = k
    · subst hk; simp [assocSet]
    · simp only [List.map_cons, List.mem_cons] at h
      rcases h with h | h
      · exact absurd h.symm hk
      · simp [assocSet, hk, ih h]

theorem mem_assocSet {κ α : Type _} [DecidableEq κ] {k : κ} {v : α} {pr : κ × α} :
    ∀ {l : List (κ × α)}, pr ∈ assocSet k v l → pr = (k, v) ∨ pr ∈ l := by
  intro l h
  induction l with
  | nil => simpa [assocSet] using h
  | cons pr' rest ih =>
    obtain ⟨k', w⟩ := pr'
    by_cases hk : k' = k
    · subst hk
      rw [show assocSet k' v ((k', w) :: rest) = (k', v) :: rest from by simp [assocSet]] at h
      rcases List.mem_cons.mp h with h | h
      · exact Or.inl h
      · exact Or.inr (List.mem_cons_of_mem _ h)
    · simp only [assocSet, if_neg hk, List.mem_cons] at h
      rcases h with h | h
      · exact Or.inr (h ▸ List.mem_cons_self _ _)
      · rcases ih h with h' | h'
        · exact Or.inl h'
        · exact Or.inr (List.mem_cons_of_mem _ h')

/-! ## Rebuild invariants -/

/-- Is `x` the name of a line of `sd`? -/
def LineOK (sd : List (Str × List Str)) (x : Str) : Prop := ∃ pr ∈ sd, x = pr.1

/-- Invariant of the `stations` map during/after `rebuild_lines`: keys are
duplicate-free, no key is disabled, every node vector is non-empty and
consists of per-line nodes of that station. -/
def StationsInv (d : List Str) (P : Str → Prop) (stations : List (Str × List Node)) : Prop :=
  (stations.map Prod.fst).Nodup ∧
  ∀ pr ∈ stations, pr.1 ∉ d ∧ pr.2 ≠ [] ∧
    ∀ nd ∈ pr.2, nd.station = pr.1 ∧ P nd.line

theorem rebuild_line_step_stations (rl : Str) (d : List Str)
    (stations : List (Str × List Node)) (graph : LabeledGraph) (prev : Option Node)
    {name : Str} (hd : name ∉ d) :
    (T.rebuild_line_step rl d (stations, graph, prev) name).1 =
      (if (assocGet name stations).isSome
       then assocSet name ((assocGet name stations).getD [] ++ [⟨name, rl⟩]) stations
       else stations ++ [(name, [⟨name, rl⟩])]) := by
  unfold T.rebuild_line_step
  simp only [if_neg hd]
  by_cases hpres : (assocGet name stations).isSome
  · rcases Option.isSome_iff_exists.mp hpres with ⟨vec, hvec⟩
    simp [hvec]
  · have hnone : assocGet name stations = none := Option.not_isSome_iff_eq_none.mp hpres
    have hnm : name ∉ stations.map Prod.fst := (assocGet_eq_none _ _).mp hnone
    simp only [hnone, Option.isSome_none, Bool.false_eq_true, if_false]
    rw [assocGet_append_of_not_mem hnm]
    simp only [assocGet, if_pos rfl, Option.getD_some, List.nil_append]
    rw [assocSet_append_of_not_mem _ hnm]
    simp [assocSet]

theorem step_spec (rl : Str) (d : List Str) (P : Str → Prop) (hP : P rl)
    (acc : List (Str × List Node) × LabeledGraph × Option Node) (name : Str)
    (hInv : StationsInv d P acc.1) :
    StationsInv d P (T.rebuild_line_step rl d acc name).1 ∧
    (∀ x, x ∈ (T.rebuild_line_step rl d acc name).1.map Prod.fst ↔
       x ∈ acc.1.map Prod.fst ∨ (x = name ∧ name ∉ d)) := by
  obtain ⟨stations, graph, prev⟩ := acc
  by_cases hd : name ∈ d
  · have hstep : T.rebuild_line_step rl d (stations, graph, prev) name =
        (stations, graph, prev) := by
      unfold T.rebuild_line_step
      simp [hd]
    rw [hstep]
    refine ⟨hInv, fun x => ?_⟩
    simp only [iff_self_or]
    rintro ⟨-, hnd⟩
    exact absurd hd hnd
  · rw [show ((stations, graph, prev) :
        List (Str × List Node) × LabeledGraph × Option Node).1 = stations from rfl] at hInv ⊢
    rw [rebuild_line_step_stations rl d stations graph prev hd]
    by_cases hpres : (assocGet name stations).isSome
    · rcases Option.isSome_iff_exists.mp hpres with ⟨vec, hvec⟩
      have hmemk : name ∈ stations.map Prod.fst :=
        List.mem_map.mpr ⟨(name, vec), assocGet_mem hvec, rfl⟩
      have hentry := hInv.2 (name, vec) (assocGet_mem hvec)
      rw [show (if (assocGet name stations).isSome
            then assocSet name ((assocGet name stations).getD [] ++ [(⟨name, rl⟩ : Node)]) stations
            else stations ++ [(name, [⟨name, rl⟩])]) =
          assocSet name (vec ++ [⟨name, rl⟩]) stations by simp [hvec]]
      constructor
      · refine ⟨by rw [assocSet_map_fst _ hmemk]; exact hInv.1, ?_⟩
        intro pr hpr
        rcases mem_assocSet hpr with rfl | hold
        · refine ⟨hd, by simp, ?_⟩
          intro nd hnd
          rcases List.mem_append.mp hnd with h | h
          · exact hentry.2.2 nd h
          · rcases List.mem_singleton.mp h with rfl
            exact ⟨rfl, hP⟩
        · exact hInv.2 pr hold
      · intro x
        rw [assocSet_map_fst _ hmemk]
        constructor
        · exact Or.inl
        · rintro (h | ⟨rfl, -⟩)
          · exact h
          · exact hmemk
    · have hnone : assocGet name stations = none := Option.not_isSome_iff_eq_none.mp hpres
      have hnm : name ∉ stations.map Prod.fst := (assocGet_eq_none _ _).mp hnone
      rw [show (if (assocGet name stations).isSome
            then assocSet name ((assocGet name stations).getD [] ++ [(⟨name, rl⟩ : Node)]) stations
            else stations ++ [(name, [⟨name, rl⟩])]) =
          stations ++ [(name, [⟨name, rl⟩])] by simp [hnone]]
      constructor
      · constructor
        · rw [List.map_append]
          simp only [List.map_cons, List.map_nil]
          exact List.Nodup.append hInv.1 (List.nodup_singleton _)
            (by simpa [List.disjoint_singleton] using hnm)
        · intro pr hpr
          rcases List.mem_append.mp hpr with hold | hnew
          · exact hInv.2 pr hold
          · rcases List.mem_singleton.mp hnew with rfl
            refine ⟨hd, by simp, ?_⟩
            intro nd hnd
            rcases List.mem_singleton.mp hnd with rfl
            exact ⟨rfl, hP⟩
      · intro x
        simp only [List.map_append, List.map_cons, List.map_nil, List.mem_append,
          List.mem_singleton]
        constructor
        · rintro (h | rfl)
          · exact Or.inl h
          · exact Or.inr ⟨rfl, hd⟩
        · rintro (h | ⟨rfl, -⟩)
          · exact Or.inl h
          · exact Or.inr rfl

theorem line_fold_spec (rl : Str) (d : List Str) (P : Str → Prop) (hP : P rl)
    (names : List Str) :
    ∀ acc : List (Str × List Node) × LabeledGraph × Option Node,
      StationsInv d P acc.1 →
      StationsInv d P ((names.foldl (T.rebuild_line_step rl d) acc)).1 ∧
      (∀ x, x ∈ ((names.foldl (T.rebuild_line_step rl d) acc)).1.map Prod.fst ↔
         x ∈ acc.1.map Prod.fst ∨ (x ∈ names ∧ x ∉ d)) := by
  induction names with
  | nil =>
    intro acc hInv
    refine ⟨hInv, fun x => ?_⟩
    simp
  | cons nm rest ih =>
    intro acc hInv
    have hstep := step_spec rl d P hP acc nm hInv
    rcases ih (T.rebuild_line_step rl d acc nm) hstep.1 with ⟨hInv', hkeys'⟩
    refine ⟨by rw [List.foldl_cons]; exact hInv', fun x => ?_⟩
    rw [List.foldl_cons, hkeys' x, hstep.2 x]
    simp only [List.mem_cons]
    constructor
    · rintro ((h | ⟨rfl, hnd⟩) | ⟨h, hnd⟩)
      · exact Or.inl h
      · exact Or.inr ⟨Or.inl rfl, hnd⟩
      · exact Or.inr ⟨Or.inr h, hnd⟩
    · rintro (h | ⟨(rfl | h), hnd⟩)
      · exact Or.inl (Or.inl h)
      · exact Or.inl (Or.inr ⟨rfl, hnd⟩)
      · exact Or.inr ⟨h, hnd⟩

theorem lines_fold_spec (d : List Str) (P : Str → Prop) :
    ∀ (sd : List (Str × List Str)) (_hsd : ∀ pr ∈ sd, P pr.1)
      (acc : List (Str × List Node) × LabeledGraph),
      StationsInv d P acc.1 →
      StationsInv d P (sd.foldl (T.rebuild_one_line d) acc).1 ∧
      (∀ x, x ∈ (sd.foldl (T.rebuild_one_line d) acc).1.map Prod.fst ↔
         x ∈ acc.1.map Prod.fst ∨ ∃ pr ∈ sd, x ∈ pr.2 ∧ x ∉ d) := by
  intro sd
  induction sd with
  | nil =>
    intro _ acc hInv
    refine ⟨hInv, fun x => ?_⟩
    simp
  | cons pr rest ih =>
    intro hsd acc hInv
    have hone : (T.rebuild_one_line d acc pr).1 =
        ((pr.2.foldl (T.rebuild_line_step pr.1 d) (acc.1, acc.2, none))).1 := rfl
    have hline := line_fold_spec pr.1 d P (hsd pr (List.mem_cons_self _ _)) pr.2
      (acc.1, acc.2, none) hInv
    rcases ih (fun q hq => hsd q (List.mem_cons_of_mem _ hq))
      (T.rebuild_one_line d acc pr) (by rw [hone]; exact hline.1) with ⟨hInv', hkeys'⟩
    refine ⟨by rw [List.foldl_cons]; exact hInv', fun x => ?_⟩
    rw [List.foldl_cons, hkeys' x, hone, hline.2 x]
    simp only [List.mem_cons]
    constructor
    · rintro ((h | ⟨h, hnd⟩) | ⟨q, hq, hx, hnd⟩)
      · exact Or.inl h
      · exact Or.inr ⟨pr, Or.inl rfl, h, hnd⟩
      · exact Or.inr ⟨q, Or.inr hq, hx, hnd⟩
    · rintro (h | ⟨q, (rfl | hq), hx, hnd⟩)
      · exact Or.inl (Or.inl h)
      · exact Or.inl (Or.inr ⟨hx, hnd⟩)
      · exact Or.inr ⟨q, hq, hx, hnd⟩

/-- The per-entry transformation performed by `add_unbiased_nodes`. -/
def unbiasedEntry (pr : Str × List Node) : Str × List Node :=
  if pr.2.length > 1 then
    (pr.1, pr.2 ++ [⟨pr.1, START_NODE_LABEL⟩, ⟨pr.1, END_NODE_LABEL⟩])
  else pr

theorem add_unbiased_list_fst (stations : List (Str × List Node)) (g : LabeledGraph) :
    (T.add_unbiased_list stations g).1 = stations.map unbiasedEntry := by
  induction stations generalizing g with
  | nil => rfl
  | cons pr rest ih =>
    obtain ⟨station, node_vec⟩ := pr
    unfold T.add_unbiased_list
    by_cases h : node_vec.length > 1
    · simp only [if_pos h, ih, List.map_cons]
      congr 1
      simp [unbiasedEntry, h]
    · simp only [if_neg h, ih, List.map_cons]
      congr 1
      simp [unbiasedEntry, h]

theorem rebuild_graph_stations (st : T) :
    (st.rebuild_graph).stations =
      ((st.source_data.foldl (T.rebuild_one_line st.disabled)
        (([] : List (Str × List Node)), LabeledGraph.new)).1).map unbiasedEntry := by
  unfold T.rebuild_graph T.add_unbiased_nodes T.rebuild_connections T.rebuild_lines
  simp [add_unbiased_list_fst]

theorem unbiasedEntry_fst (pr : Str × List Node) : (unbiasedEntry pr).1 = pr.1 := by
  unfold unbiasedEntry
  split <;> rfl

theorem rebuild_stations_keys (st : T) (x : Str) :
    (x ∈ (st.rebuild_graph).stations.map Prod.fst ↔
      ∃ pr ∈ st.source_data, x ∈ pr.2 ∧ x ∉ st.disabled) := by
  rw [rebuild_graph_stations]
  have hmap : (((st.source_data.foldl (T.rebuild_one_line st.disabled)
      (([] : List (Str × List Node)), LabeledGraph.new)).1).map unbiasedEntry).map Prod.fst =
      ((st.source_data.foldl (T.rebuild_one_line st.disabled)
      (([] : List (Str × List Node)), LabeledGraph.new)).1).map Prod.fst := by
    rw [List.map_map]
    exact List.map_congr_left (fun pr _ => unbiasedEntry_fst pr)
  rw [hmap]
  have h := (lines_fold_spec st.disabled (fun _ => True) st.source_data (fun _ _ => trivial)
    ([], LabeledGraph.new) (by constructor <;> simp [StationsInv])).2 x
  rw [h]
  simp

theorem rebuild_stations_nodup (st : T) :
    ((st.rebuild_graph).stations.map Prod.fst).Nodup := by
  rw [rebuild_graph_stations]
  rw [List.map_map]
  rw [show (Prod.fst ∘ unbiasedEntry) = (Prod.fst : Str × List Node → Str) from
    funext (fun pr => unbiasedEntry_fst pr)]
  exact ((lines_fold_spec st.disabled (fun _ => True) st.source_data (fun _ _ => trivial)
    ([], LabeledGraph.new) (by constructor <;> simp [StationsInv])).1).1

theorem getD_append_two_left {α : Type _} (l : List α) (a b d : α) :
    (l ++ [a, b]).getD l.length d = a := by
  induction l with
  | nil => rfl
  | cons x xs ih => simpa using ih

theorem getD_append_two_right {α : Type _} (l : List α) (a b d : α) :
    (l ++ [a, b]).getD (l.length + 1) d = b := by
  induction l with
  | nil => rfl
  | cons x xs ih => simpa using ih

theorem dropLast_append_two {α : Type _} (l : List α) (a b : α) :
    ((l ++ [a, b]).dropLast).dropLast = l := by
  rw [show l ++ [a, b] = (l ++ [a]) ++ [b] by simp, List.dropLast_concat,
    List.dropLast_concat]

/-- The entry invariant established by `rebuild_lines` for the reset state. -/
theorem rebuild_lines_inv (st : T) :
    StationsInv st.disabled (LineOK st.source_data)
      ((st.source_data.foldl (T.rebuild_one_line st.disabled)
        (([] : List (Str × List Node)), LabeledGraph.new)).1) :=
  ((lines_fold_spec st.disabled (LineOK st.source_data) st.source_data
    (fun pr hpr => ⟨pr, hpr, rfl⟩)
    ([], LabeledGraph.new) (by constructor <;> simp [StationsInv]))).1

/-- Claim C10: invariant of the `stations` map in any rebuilt (canonical)
state whose line names avoid the two reserved labels: every value vector is
non-empty, belongs to a non-disabled station, consists of nodes of that
station, and either has length 1 (a single real per-line node) or length
k+2 ≥ 4 whose last two entries are the synthetic `start_node` and `end_node`
nodes (selected by `find_path` via indices `len-2` / `len-1`), preceded by
the k ≥ 2 real per-line nodes. -/
theorem claim_C10 (st : T) (hc : st.rebuild_graph = st)
    (hres : ∀ pr ∈ st.source_data,
      pr.1 ≠ START_NODE_LABEL ∧ pr.1 ≠ END_NODE_LABEL) :
    ∀ pr ∈ st.stations,
      pr.1 ∉ st.disabled ∧ pr.2 ≠ [] ∧ (∀ nd ∈ pr.2, nd.station = pr.1) ∧
      ((pr.2.length = 1 ∧
         ∀ nd ∈ pr.2, nd.line ≠ START_NODE_LABEL ∧ nd.line ≠ END_NODE_LABEL) ∨
       (4 ≤ pr.2.length ∧
         pr.2.getD (pr.2.length - 2) default = ⟨pr.1, START_NODE_LABEL⟩ ∧
         pr.2.getD (pr.2.length - 1) default = ⟨pr.1, END_NODE_LABEL⟩ ∧
         2 ≤ (pr.2.dropLast.dropLast).length ∧
         ∀ nd ∈ pr.2.dropLast.dropLast,
           nd.line ≠ START_NODE_LABEL ∧ nd.line ≠ END_NODE_LABEL)) := by
  intro pr hpr
  have hsd : (st.rebuild_graph).source_data = st.source_data := by
    unfold T.rebuild_graph T.add_unbiased_nodes T.rebuild_connections T.rebuild_lines
    rfl
  have hdis : (st.rebuild_graph).disabled = st.disabled := by
    unfold T.rebuild_graph T.add_unbiased_nodes T.rebuild_connections T.rebuild_lines
    rfl
  -- transport membership to the rebuilt stations list
  rw [← hc, rebuild_graph_stations] at hpr
  rcases List.mem_map.mp hpr with ⟨pr0, hpr0, rfl⟩
  have hinv := (rebuild_lines_inv st).2 pr0 hpr0
  rcases hinv with ⟨hdis0, hne0, hnode0⟩
  have hline : ∀ nd ∈ pr0.2, nd.line ≠ START_NODE_LABEL ∧ nd.line ≠ END_NODE_LABEL := by
    intro nd hnd
    rcases (hnode0 nd hnd).2 with ⟨q, hq, heq⟩
    rcases hres q hq with ⟨h1, h2⟩
    exact ⟨heq ▸ h1, heq ▸ h2⟩
  unfold unbiasedEntry
  by_cases h : pr0.2.length > 1
  · simp only [if_pos h]
    refine ⟨hdis0, by simp, ?_, Or.inr ?_⟩
    · intro nd hnd
      rcases List.mem_append.mp hnd with hnd | hnd
      · exact (hnode0 nd hnd).1
      · rcases List.mem_cons.mp hnd with rfl | hnd
        · rfl
        · rcases List.mem_singleton.mp hnd with rfl
          rfl
    · have hlen : (pr0.2 ++ [(⟨pr0.1, START_NODE_LABEL⟩ : Node), ⟨pr0.1, END_NODE_LABEL⟩]).length
          = pr0.2.length + 2 := by simp
      refine ⟨by omega, ?_, ?_, ?_, ?_⟩
      · rw [hlen, show pr0.2.length + 2 - 2 = pr0.2.length from rfl]
        exact getD_append_two_left _ _ _ _
      · rw [hlen, show pr0.2.length + 2 - 1 = pr0.2.length + 1 by omega]
        exact getD_append_two_right _ _ _ _
      · rw [dropLast_append_two]
        omega
      · rw [dropLast_append_two]
        exact hline
  · simp only [if_neg h]
    have hlen1 : pr0.2.length = 1 := by
      rcases List.length_pos.mpr hne0 with h1
      omega
    exact ⟨hdis0, hne0, fun nd hnd => (hnode0 nd hnd).1, Or.inl ⟨hlen1, hline⟩⟩

theorem rebuild_graph_source_data (st : T) : (st.rebuild_graph).source_data = st.source_data := rfl

theorem rebuild_graph_connections (st : T) : (st.rebuild_graph).connections = st.connections := rfl

theorem rebuild_graph_disabled (st : T) : (st.rebuild_graph).disabled = st.disabled := rfl

theorem rebuild_graph_congr {st st' : T} (h1 : st.source_data = st'.source_data)
    (h2 : st.connections = st'.connections) (h3 : st.disabled = st'.disabled) :
    st.rebuild_graph = st'.rebuild_graph := by
  unfold T.rebuild_graph
  have h : ({ st with stations := [], graph := LabeledGraph.new } : T) =
      { st' with stations := [], graph := LabeledGraph.new } := by
    cases st; cases st'
    simp_all
  rw [h]

theorem rebuild_graph_idem (st : T) : (st.rebuild_graph).rebuild_graph = st.rebuild_graph :=
  rebuild_graph_congr (rebuild_graph_source_data st) (rebuild_graph_connections st)
    (rebuild_graph_disabled st)

theorem modify_station_canonical (st : T) (s : Str) (en : Bool)
    (hc : st.rebuild_graph = st) :
    ((st.modify_station s en).2).rebuild_graph = (st.modify_station s en).2 := by
  unfold T.modify_station
  cases hD : st.disambiguate_station s with
  | Suggestions val =>
    by_cases hv : val.isEmpty
    · simp only [hv, if_true]
      exact hc
    · simp only [hv, if_false]
      exact hc
  | Station m =>
    by_cases hxor : xor en (decide (m ∈ st.disabled))
    · simp only [hxor, if_true]
      exact hc
    · simp only [hxor, if_false]
      exact rebuild_graph_idem _

theorem modify_station_disable_eq (st : T) (s m : Str)
    (hd : st.disambiguate_station s = .Station m) (hmem : m ∉ st.disabled) :
    st.modify_station s false =
      (.Successful, T.rebuild_graph { st with disabled := hsInsert m st.disabled }) := by
  unfold T.modify_station
  rw [hd]
  simp [hmem]

theorem modify_station_enable_eq (st : T) (s m : Str)
    (hd : st.disambiguate_station s = .Station m) (hmem : m ∈ st.disabled) :
    st.modify_station s true =
      (.Successful, T.rebuild_graph { st with disabled := st.disabled.erase m }) := by
  unfold T.modify_station
  rw [hd]
  simp [hmem]

theorem claim_C7 (st : T) (s m : Str) (hc : st.rebuild_graph = st)
    (hdnd : st.disabled.Nodup)
    (hd : st.disambiguate_station s = .Station m) (hm : m ∉ st.disabled) :
    ∀ a b, ((((st.disable_station s).2).enable_station s).2).find_path a b =
      st.find_path a b := by
  have hmatch : matchList st s = [m] := (disamb_station_iff st s m).mp hd
  have hmem_m : m ∈ st.allNames ∧ strContains m s = true := by
    have hmm : m ∈ matchList st s := by rw [hmatch]; exact List.mem_cons_self _ _
    exact List.mem_filter.mp hmm
  have hst1 : (st.disable_station s).2 =
      T.rebuild_graph { st with disabled := st.disabled ++ [m] } := by
    unfold T.disable_station
    rw [modify_station_disable_eq st s m hd hm]
    rw [show hsInsert m st.disabled = st.disabled ++ [m] by simp [hsInsert, hm]]
  have hst1sd : ((st.disable_station s).2).source_data = st.source_data := by
    rw [hst1]; rfl
  have hst1conn : ((st.disable_station s).2).connections = st.connections := by
    rw [hst1]; rfl
  have hst1dis : ((st.disable_station s).2).disabled = st.disabled ++ [m] := by
    rw [hst1]; rfl
  have hmkeys : m ∈ st.stations.map Prod.fst := by
    rcases List.mem_append.mp hmem_m.1 with h | h
    · exact h
    · exact absurd h hm
  have hmsrc : ∃ pr ∈ st.source_data, m ∈ pr.2 ∧ m ∉ st.disabled := by
    rw [← hc] at hmkeys
    exact (rebuild_stations_keys st m).mp hmkeys
  have hkeys1 : ∀ x, x ∈ ((st.disable_station s).2).stations.map Prod.fst ↔
      ∃ pr ∈ st.source_data, x ∈ pr.2 ∧ x ∉ st.disabled ++ [m] := by
    intro x
    rw [hst1]
    exact rebuild_stations_keys { st with disabled := st.disabled ++ [m] } x
  have hkeys0 : ∀ x, x ∈ st.stations.map Prod.fst ↔
      ∃ pr ∈ st.source_data, x ∈ pr.2 ∧ x ∉ st.disabled := by
    intro x
    conv_lhs => rw [← hc]
    exact rebuild_stations_keys st x
  have hnames : ∀ x, x ∈ ((st.disable_station s).2).allNames ↔ x ∈ st.allNames := by
    intro x
    unfold T.allNames
    rw [List.mem_append, List.mem_append, hkeys1 x, hst1dis, hkeys0 x]
    by_cases hxm : x = m
    · subst hxm
      rcases hmsrc with ⟨pr, hpr, hx, hnd⟩
      constructor
      · rintro -
        exact Or.inl ⟨pr, hpr, hx, hnd⟩
      · rintro -
        exact Or.inr (List.mem_append.mpr (Or.inr (List.mem_singleton.mpr rfl)))
    · constructor
      · rintro (⟨pr, hpr, hx, hnd⟩ | h)
        · refine Or.inl ⟨pr, hpr, hx, ?_⟩
          intro hcon
          exact hnd (List.mem_append.mpr (Or.inl hcon))
        · rcases List.mem_append.mp h with h' | h'
          · exact Or.inr h'
          · exact absurd (List.mem_singleton.mp h') hxm
      · rintro (⟨pr, hpr, hx, hnd⟩ | h)
        · refine Or.inl ⟨pr, hpr, hx, ?_⟩
          intro hcon
          rcases List.mem_append.mp hcon with h' | h'
          · exact hnd h'
          · exact hxm (List.mem_singleton.mp h')
        · exact Or.inr (List.mem_append.mpr (Or.inl h))
  have hnd1 : ((st.disable_station s).2).allNames.Nodup := by
    unfold T.allNames
    refine List.Nodup.append ?_ ?_ ?_
    · rw [hst1]
      exact rebuild_stations_nodup _
    · rw [hst1dis]
      exact List.Nodup.append hdnd (List.nodup_singleton m)
        (by simpa [List.disjoint_singleton] using hm)
    · intro x hx hx'
      rcases (hkeys1 x).mp hx with ⟨pr, hpr, hxx, hnd⟩
      rw [hst1dis] at hx'
      exact hnd hx'
  have hd1 : ((st.disable_station s).2).disambiguate_station s = .Station m := by
    apply (disamb_station_iff _ s m).mpr
    apply eq_singleton_of_mem_all_eq
    · exact List.mem_filter.mpr ⟨(hnames m).mpr hmem_m.1, hmem_m.2⟩
    · intro x hx
      rcases List.mem_filter.mp hx with ⟨hx1, hx2⟩
      have hx0 : x ∈ matchList st s := List.mem_filter.mpr ⟨(hnames x).mp hx1, hx2⟩
      rw [hmatch] at hx0
      exact List.mem_singleton.mp hx0
    · exact hnd1.filter _
  have hmem1 : m ∈ ((st.disable_station s).2).disabled := by
    rw [hst1dis]
    exact List.mem_append.mpr (Or.inr (List.mem_singleton.mpr rfl))
  have herase : (st.disabled ++ [m]).erase m = st.disabled := by
    rw [List.erase_append_right _ hm]
    simp
  have hst2 : (((st.disable_station s).2).enable_station s).2 = st := by
    unfold T.enable_station
    rw [modify_station_enable_eq _ s m hd1 hmem1]
    show T.rebuild_graph { (st.disable_station s).2 with
        disabled := ((st.disable_station s).2).disabled.erase m } = st
    have hdis' : ({ (st.disable_station s).2 with
        disabled := ((st.disable_station s).2).disabled.erase m } : T).disabled =
        st.disabled := by
      show ((st.disable_station s).2).disabled.erase m = st.disabled
      rw [hst1dis, herase]
    have hcong := @rebuild_graph_congr
      ({ (st.disable_station s).2 with
        disabled := ((st.disable_station s).2).disabled.erase m })
      st hst1sd hst1conn hdis'
    exact hcong.trans hc
  intro a b
  rw [hst2]

/-- The node vector of the transfer station `"pp"` in `egT`. -/
def ppVec : List Node :=
  [⟨"pp".data, "r".data⟩, ⟨"pp".data, "b".data⟩,
   ⟨"pp".data, START_NODE_LABEL⟩, ⟨"pp".data, END_NODE_LABEL⟩]

/-- Witness for C10 at the transfer station `"pp"` of the loaded network `egT`. -/
theorem claim_C10_witness :
    "pp".data ∉ egT.disabled ∧ ppVec ≠ [] ∧ (∀ nd ∈ ppVec, nd.station = "pp".data) ∧
    ((ppVec.length = 1 ∧
       ∀ nd ∈ ppVec, nd.line ≠ START_NODE_LABEL ∧ nd.line ≠ END_NODE_LABEL) ∨
     (4 ≤ ppVec.length ∧
       ppVec.getD (ppVec.length - 2) default = ⟨"pp".data, START_NODE_LABEL⟩ ∧
       ppVec.getD (ppVec.length - 1) default = ⟨"pp".data, END_NODE_LABEL⟩ ∧
       2 ≤ (ppVec.dropLast.dropLast).length ∧
       ∀ nd ∈ ppVec.dropLast.dropLast,
         nd.line ≠ START_NODE_LABEL ∧ nd.line ≠ END_NODE_LABEL)) :=
  claim_C10 egT (rebuild_graph_idem _) (by decide) ("pp".data, ppVec) (by decide)

/-- Witness for C7: disabling then re-enabling `"aa"` in `egT` leaves a
concrete `find_path` query unchanged. -/
theorem claim_C7_witness :
    ((((egT.disable_station "aa".data).2).enable_station "aa".data).2).find_path
      "aa".data "cc".data = egT.find_path "aa".data "cc".data :=
  claim_C7 egT "aa".data "aa".data (rebuild_graph_idem _) (by decide) (by decide) (by decide)
    "aa".data "cc".data

/-! ## Dijkstra correctness: walks and costs -/

/-- Well-formedness of a `Graph`: every adjacency target is a valid index.
`add_edge`'s assertions ensure this for every graph the program builds. -/
def WellFormed (g : Graph) : Prop :=
  ∀ l ∈ g.edges, ∀ e ∈ l, e.node < g.edges.length

instance (g : Graph) : Decidable (WellFormed g) := by
  unfold WellFormed
  infer_instance

/-- A walk from `s` to `t` through `g`, listing the visited nodes and the
total cost of the chosen edges. -/
inductive Walk (g : Graph) : ℕ → ℕ → List ℕ → ℕ → Prop where
  | nil (v : ℕ) (hv : v < g.edges.length) : Walk g v v [v] 0
  | snoc {s u : ℕ} {p : List ℕ} {k : ℕ} (w : Walk g s u p k) {v c : ℕ}
      (hv : v < g.edges.length) (he : (⟨v, c⟩ : Edge) ∈ g.edgesAt u) :
      Walk g s v (p ++ [v]) (k + c)

/-- The cost of a node list as a chain of edge choices, head-recursively. -/
def WalkCost (g : Graph) : List ℕ → ℕ → Prop
  | [], _ => False
  | [_], k => k = 0
  | u :: v :: rest, k =>
    ∃ c k', (⟨v, c⟩ : Edge) ∈ g.edgesAt u ∧ WalkCost g (v :: rest) k' ∧ k = c + k'

theorem walk_ne_nil {g s t p k} (w : Walk g s t p k) : p ≠ [] := by
  cases w <;> simp

theorem walk_head? {g s t p k} (w : Walk g s t p k) : p.head? = some s := by
  induction w with
  | nil hv => rfl
  | snoc w hv he ih =>
    rw [head?_append_left (walk_ne_nil w)]
    exact ih

theorem walk_getLast? {g s t p k} (w : Walk g s t p k) : p.getLast? = some t := by
  cases w with
  | nil => rfl
  | snoc w hv he => rw [getLast?_append_right (by simp)]; rfl

theorem walk_mem_lt {g s t p k} (w : Walk g s t p k) : ∀ x ∈ p, x < g.edges.length := by
  induction w with
  | nil hv => intro x hx; rcases List.mem_singleton.mp hx with rfl; exact hv
  | snoc w hv he ih =>
    intro x hx
    rcases List.mem_append.mp hx with hx | hx
    · exact ih x hx
    · rcases List.mem_singleton.mp hx with rfl; exact hv

theorem walk_endpoint_lt {g s t p k} (w : Walk g s t p k) : t < g.edges.length := by
  cases w with
  | nil hv => exact hv
  | snoc w hv he => exact hv

theorem walk_start_lt {g s t p k} (w : Walk g s t p k) : s < g.edges.length := by
  induction w with
  | nil hv => exact hv
  | snoc w hv he ih => exact ih

theorem walkCost_snoc {g : Graph} {p : List ℕ} {u v c k : ℕ}
    (hc : WalkCost g p k) (hu : p.getLast? = some u)
    (he : (⟨v, c⟩ : Edge) ∈ g.edgesAt u) :
    WalkCost g (p ++ [v]) (k + c) := by
  induction p generalizing k with
  | nil => cases hc
  | cons x rest ih =>
    cases rest with
    | nil =>
      have hxu : x = u := by simpa using hu
      subst hxu
      rcases hc with rfl
      exact ⟨c, 0, by simpa using he, rfl, by omega⟩
    | cons y rest' =>
      rcases hc with ⟨c0, k0, he0, hc0, rfl⟩
      have hu' : (y :: rest').getLast? = some u := by
        rw [← hu]; simp [List.getLast?_cons_cons]
      exact ⟨c0, k0 + c, he0, ih hc0 hu', by omega⟩

theorem walk_walkCost {g s t p k} (w : Walk g s t p k) : WalkCost g p k := by
  induction w with
  | nil => rfl
  | snoc w hv he ih => exact walkCost_snoc ih (walk_getLast? w) he

/-- Join two walk-cost chains at a shared node. -/
theorem walkCost_append {g : Graph} {l₁ l₂ : List ℕ} {x k₁ k₂ : ℕ}
    (h1 : WalkCost g (l₁ ++ [x]) k₁) (h2 : WalkCost g (x :: l₂) k₂) :
    WalkCost g (l₁ ++ x :: l₂) (k₁ + k₂) := by
  induction l₁ generalizing k₁ with
  | nil =>
    rcases h1 with rfl
    simpa using h2
  | cons a l₁' ih =>
    cases l₁' with
    | nil =>
      rcases h1 with ⟨c, k', he, hk', rfl⟩
      rcases hk' with rfl
      exact ⟨c, k₂, he, h2, by omega⟩
    | cons b l₁'' =>
      rcases h1 with ⟨c, k', he, hk', rfl⟩
      exact ⟨c, k' + k₂, he, ih hk', by omega⟩

/-- Split a walk-cost chain at an interior node. -/
theorem walkCost_split {g : Graph} {l₁ l₂ : List ℕ} {x k : ℕ}
    (h : WalkCost g (l₁ ++ x :: l₂) k) :
    ∃ k₁ k₂, k = k₁ + k₂ ∧ WalkCost g (l₁ ++ [x]) k₁ ∧ WalkCost g (x :: l₂) k₂ := by
  induction l₁ generalizing k with
  | nil => exact ⟨0, k, by omega, rfl, h⟩
  | cons a l₁' ih =>
    cases l₁' with
    | nil =>
      rcases h with ⟨c, k', he, hk', rfl⟩
      exact ⟨c + 0, k', by omega, ⟨c, 0, he, rfl, rfl⟩, hk'⟩
    | cons b l₁'' =>
      rcases h with ⟨c, k', he, hk', rfl⟩
      rcases ih hk' with ⟨k₁, k₂, rfl, hw1, hw2⟩
      exact ⟨c + k₁, k₂, by omega, ⟨c, k₁, he, hw1, rfl⟩, hw2⟩

theorem head?_append_cons {α : Type _} (l₁ : List α) (x : α) (r : List α) :
    (l₁ ++ x :: r).head? = (l₁ ++ [x]).head? := by
  cases l₁ <;> rfl

theorem walk_of_walkCost {g : Graph} :
    ∀ {p : List ℕ} {s t k : ℕ}, p.head? = some s → p.getLast? = some t →
      (∀ x ∈ p, x < g.edges.length) → WalkCost g p k → Walk g s t p k := by
  intro p
  induction p using List.reverseRecOn with
  | nil => intro s t k h1 _ _ hc; cases hc
  | append_singleton l v ih =>
    intro s t k h1 h2 hlt hc
    have hv : v < g.edges.length := hlt v (by simp)
    have htv : t = v := by
      rw [getLast?_append_right (by simp)] at h2
      simpa using h2.symm
    rw [htv]
    rcases l.eq_nil_or_concat with rfl | ⟨l', u, rfl⟩
    · have hsv : s = v := by simpa using h1.symm
      subst hsv
      rcases hc with rfl
      exact Walk.nil s hv
    · -- l = l' ++ [u]; split the cost chain at u
      simp only [List.concat_eq_append] at h1 h2 hlt hc ih ⊢
      have hsplit := @walkCost_split g l' [v] u k (by simpa using hc)
      rcases hsplit with ⟨k₁, k₂, rfl, hw1, hw2⟩
      rcases hw2 with ⟨c, k', he, hk', rfl⟩
      rcases hk' with rfl
      have hhead : (l' ++ [u]).head? = some s := by
        rw [← head?_append_cons l' u [v]]
        simpa using h1
      have hwalk : Walk g s u (l' ++ [u]) k₁ :=
        ih hhead (getLast?_append_right (by simp))
          (fun x hx => hlt x (List.mem_append.mpr (Or.inl hx))) hw1
      have hsn := Walk.snoc hwalk hv he
      simpa [Nat.add_comm c 0] using hsn

theorem exists_dup_split {α : Type _} : ∀ {l : List α}, ¬ l.Nodup →
    ∃ l₁ x l₂ l₃, l = l₁ ++ x :: l₂ ++ x :: l₃ := by
  intro l
  induction l with
  | nil => intro h; exact absurd List.nodup_nil h
  | cons a l' ih =>
    intro h
    rw [List.nodup_cons] at h
    push_neg at h
    by_cases ha : a ∈ l'
    · rcases List.append_of_mem ha with ⟨s, t, rfl⟩
      exact ⟨[], a, s, t, rfl⟩
    · rcases ih (h ha) with ⟨l₁, x, l₂, l₃, rfl⟩
      exact ⟨a :: l₁, x, l₂, l₃, rfl⟩

theorem walkCost_simple (g : Graph) :
    ∀ (n : ℕ) (p : List ℕ) (k : ℕ), p.length ≤ n → WalkCost g p k →
      ∃ p' k', WalkCost g p' k' ∧ p'.Nodup ∧ k' ≤ k ∧ p'.head? = p.head? ∧
        p'.getLast? = p.getLast? ∧ (∀ x ∈ p', x ∈ p) := by
  intro n
  induction n with
  | zero =>
    intro p k hlen hc
    have hp : p = [] := List.eq_nil_of_length_eq_zero (by omega)
    subst hp
    cases hc
  | succ m ih =>
    intro p k hlen hc
    by_cases hnd : p.Nodup
    · exact ⟨p, k, hc, hnd, le_refl k, rfl, rfl, fun x hx => hx⟩
    · rcases exists_dup_split hnd with ⟨l₁, x, l₂, l₃, rfl⟩
      simp only [List.append_assoc, List.cons_append] at hc hlen ⊢
      have hsp1 := @walkCost_split g l₁ (l₂ ++ x :: l₃) x k hc
      rcases hsp1 with ⟨k₁, k₂, rfl, hw1, hw2⟩
      have hsp2 := @walkCost_split g (x :: l₂) l₃ x k₂ (by simpa using hw2)
      rcases hsp2 with ⟨k₃, k₄, rfl, hw3, hw4⟩
      have hjoin : WalkCost g (l₁ ++ x :: l₃) (k₁ + k₄) := walkCost_append hw1 hw4
      have hlen' : (l₁ ++ x :: l₃).length ≤ m := by
        simp only [List.length_append, List.length_cons] at hlen ⊢
        omega
      rcases ih (l₁ ++ x :: l₃) (k₁ + k₄) hlen' hjoin with
        ⟨p', k', hc', hnd', hle', hh', hl', hmem'⟩
      refine ⟨p', k', hc', hnd', by omega, ?_, ?_, ?_⟩
      · rw [hh', head?_append_cons l₁ x l₃, head?_append_cons l₁ x (l₂ ++ x :: l₃)]
      · rw [hl', @getLast?_append_right ℕ l₁ (x :: l₃) (by simp),
          show l₁ ++ x :: (l₂ ++ x :: l₃) = (l₁ ++ x :: l₂) ++ x :: l₃ by simp,
          @getLast?_append_right ℕ (l₁ ++ x :: l₂) (x :: l₃) (by simp)]
      · intro y hy
        have := hmem' y hy
        simp only [List.mem_append, List.mem_cons] at this ⊢
        tauto

/-- Total cost of the adjacency row of node `u`. -/
def rowCost (g : Graph) (u : ℕ) : ℕ := ((g.edgesAt u).map Edge.cost).sum

theorem elem_le_sum : ∀ {l : List ℕ} {a : ℕ}, a ∈ l → a ≤ l.sum := by
  intro l
  induction l with
  | nil => intro a h; cases h
  | cons x xs ih =>
    intro a h
    rcases List.mem_cons.mp h with rfl | h'
    · simp
    · have hle := ih h'
      simp only [List.sum_cons]
      omega

theorem walkCost_le_rowSum {g : Graph} : ∀ {p : List ℕ} {k : ℕ}, WalkCost g p k →
    k ≤ ((p.dropLast).map (rowCost g)).sum := by
  intro p
  induction p with
  | nil => intro k hc; cases hc
  | cons u rest ih =>
    intro k hc
    cases rest with
    | nil => rcases hc with rfl; simp
    | cons v rest' =>
      rcases hc with ⟨c, k', he, hc', rfl⟩
      have h1 : c ≤ rowCost g u :=
        elem_le_sum (List.mem_map.mpr ⟨⟨v, c⟩, he, rfl⟩)
      have h2 := ih hc'
      have hdl : ((u :: v :: rest').dropLast) = u :: ((v :: rest').dropLast) := rfl
      rw [hdl, List.map_cons, List.sum_cons]
      omega

theorem sublist_sum_le : ∀ {l₁ l₂ : List ℕ}, l₁.Sublist l₂ → l₁.sum ≤ l₂.sum := by
  intro l₁ l₂ h
  induction h with
  | slnil => exact le_refl 0
  | cons a h ih => simp only [List.sum_cons]; omega
  | cons₂ a h ih => simp only [List.sum_cons]; omega

theorem nodup_map_sum_le_range {f : ℕ → ℕ} {l : List ℕ} {n : ℕ} (hnd : l.Nodup)
    (hlt : ∀ x ∈ l, x < n) : (l.map f).sum ≤ ((List.range n).map f).sum := by
  have hperm : List.Perm l ((List.range n).filter (fun x => decide (x ∈ l))) := by
    refine (List.perm_ext_iff_of_nodup hnd ((List.nodup_range n).filter _)).mpr ?_
    intro a
    simp only [List.mem_filter, List.mem_range, decide_eq_true_eq]
    exact ⟨fun h => ⟨hlt a h, h⟩, fun h => h.2⟩
  rw [(hperm.map f).sum_eq]
  exact sublist_sum_le (((List.filter_sublist _).map f))

theorem range_map_getD_sum {α : Type _} (L : List α) (d : α) (f : α → ℕ) :
    ((List.range L.length).map (fun i => f (L.getD i d))).sum = (L.map f).sum := by
  induction L with
  | nil => rfl
  | cons x rest ih =>
    rw [show (x :: rest).length = rest.length + 1 from rfl, List.range_succ_eq_map]
    simp only [List.map_cons, List.map_map, List.sum_cons]
    have : ((List.range rest.length).map (fun i => f ((x :: rest).getD (Nat.succ i) d))).sum
        = ((List.range rest.length).map (fun i => f (rest.getD i d))).sum := by
      exact congrArg List.sum (List.map_congr_left (fun i _ => rfl))
    rw [show ((List.range rest.length).map ((fun i => f ((x :: rest).getD i d)) ∘ Nat.succ))
        = ((List.range rest.length).map (fun i => f (rest.getD i d))) from
      List.map_congr_left (fun i _ => rfl)]
    rw [ih]
    rfl

theorem simple_walk_le_totalCost {g : Graph} {p : List ℕ} {k : ℕ}
    (hc : WalkCost g p k) (hnd : p.Nodup) (hlt : ∀ x ∈ p, x < g.edges.length) :
    k ≤ g.totalCost := by
  have h1 := walkCost_le_rowSum hc
  have h2 : ((p.dropLast).map (rowCost g)).sum ≤
      ((List.range g.edges.length).map (rowCost g)).sum :=
    nodup_map_sum_le_range (hnd.sublist (List.dropLast_sublist p))
      (fun x hx => hlt x ((List.dropLast_sublist p).mem hx))
  have h3 : ((List.range g.edges.length).map (rowCost g)).sum = g.totalCost := by
    unfold Graph.totalCost
    have := range_map_getD_sum g.edges [] (fun l => (l.map Edge.cost).sum)
    rw [← this]
    rfl
  omega

/-! ## Cost-table and queue lemmas -/

/-- Read the cost table (Rust `cost[v]`; out of range never occurs at use sites). -/
def cGet (c : List (ℕ × List ℕ)) (v : ℕ) : ℕ × List ℕ := c.getD v (USIZE_MAX, [])

theorem cGet_set_self {c : List (ℕ × List ℕ)} {v : ℕ} (h : v < c.length)
    (a : ℕ × List ℕ) : cGet (c.set v a) v = a := by
  unfold cGet
  induction c generalizing v with
  | nil => simp at h
  | cons x rest ih =>
    cases v with
    | zero => rfl
    | succ v' => exact ih (by simpa using h)

theorem cGet_set_ne {c : List (ℕ × List ℕ)} {v w : ℕ} (h : w ≠ v) (a : ℕ × List ℕ) :
    cGet (c.set v a) w = cGet c w := by
  unfold cGet
  induction c generalizing v w with
  | nil => simp
  | cons x rest ih =>
    cases v with
    | zero =>
      cases w with
      | zero => exact absurd rfl h
      | succ w' => rfl
    | succ v' =>
      cases w with
      | zero => rfl
      | succ w' => exact ih (fun hc => h (by rw [hc]))

theorem cGet_default {c : List (ℕ × List ℕ)} {v : ℕ} (h : c.length ≤ v) :
    cGet c v = (USIZE_MAX, []) := by
  unfold cGet
  rw [List.getD_eq_default]
  exact h

theorem cGet_replicate_set (n src : ℕ) (hs : src < n) :
    (∀ v, v ≠ src →
      cGet ((List.replicate n ((USIZE_MAX : ℕ), ([] : List ℕ))).set src (0, [src])) v =
        (USIZE_MAX, [])) ∧
    cGet ((List.replicate n ((USIZE_MAX : ℕ), ([] : List ℕ))).set src (0, [src])) src =
      (0, [src]) := by
  constructor
  · intro v hv
    rw [cGet_set_ne hv]
    unfold cGet
    by_cases h : v < n
    · rw [List.getD_eq_getElem?_getD]
      simp [List.getElem?_replicate, h]
    · rw [List.getD_eq_default]
      simpa using Nat.le_of_not_lt h
  · rw [cGet_set_self (by simpa using hs)]

theorem popMin_eq_none {q : List State} : Graph.popMin q = none ↔ q = [] := by
  cases q with
  | nil => simp [Graph.popMin]
  | cons s rest =>
    simp only [Graph.popMin]
    constructor
    · intro h
      rcases hrest : Graph.popMin rest with - | pr
      · rw [hrest] at h; cases h
      · rw [hrest] at h
        obtain ⟨m, rest'⟩ := pr
        by_cases hle : s.cost ≤ m.cost <;> simp [hle] at h
    · intro h; cases h

theorem popMin_perm : ∀ {q : List State} {s : State} {rest : List State},
    Graph.popMin q = some (s, rest) → List.Perm q (s :: rest) := by
  intro q
  induction q with
  | nil => intro s rest h; cases h
  | cons a q' ih =>
    intro s rest h
    simp only [Graph.popMin] at h
    split at h
    · rename_i hrec
      rcases popMin_eq_none.mp hrec with rfl
      simp only [Option.some.injEq, Prod.mk.injEq] at h
      rcases h with ⟨rfl, rfl⟩
      exact List.Perm.refl _
    · rename_i m rest' hrec
      split at h <;> simp only [Option.some.injEq, Prod.mk.injEq] at h <;>
        rcases h with ⟨rfl, rfl⟩
      · exact List.Perm.refl _
      · exact ((ih hrec).cons a).trans (List.Perm.swap _ _ _)

/-! ## The termination measure -/

/-- The list of edge-choice cost sums along a node list. -/
def walkCosts (g : Graph) : List ℕ → List ℕ
  | [] => []
  | [_] => [0]
  | u :: v :: rest =>
    ((g.edgesAt u).filter (fun e => e.node = v)).flatMap
      (fun e => (walkCosts g (v :: rest)).map (fun k => e.cost + k))

/-- All duplicate-free lists over `{0, …, n-1}`. -/
def allNodup (n : ℕ) : List (List ℕ) :=
  ((List.range n).sublists).flatMap (fun s => s.permutations)

theorem mem_allNodup {n : ℕ} {p : List ℕ} (hnd : p.Nodup) (hlt : ∀ x ∈ p, x < n) :
    p ∈ allNodup n := by
  unfold allNodup
  rw [List.mem_flatMap]
  refine ⟨(List.range n).filter (fun x => decide (x ∈ p)), ?_, ?_⟩
  · exact List.mem_sublists.mpr (List.filter_sublist _)
  · rw [List.mem_permutations]
    refine (List.perm_ext_iff_of_nodup hnd ((List.nodup_range n).filter _)).mpr ?_
    intro a
    simp only [List.mem_filter, List.mem_range, decide_eq_true_eq]
    exact ⟨fun h => ⟨hlt a h, h⟩, fun h => h.2⟩

theorem allNodup_length_le {n : ℕ} {p : List ℕ} (hp : p ∈ allNodup n) : p.length ≤ n := by
  unfold allNodup at hp
  rw [List.mem_flatMap] at hp
  rcases hp with ⟨s, hs, hperm⟩
  rw [List.mem_permutations] at hperm
  rw [hperm.length_eq]
  calc s.length ≤ (List.range n).length := (List.mem_sublists.mp hs).length_le
  _ = n := List.length_range n

theorem map_const_sum (l : List α) (b : ℕ) : (l.map (fun _ => b)).sum = l.length * b := by
  induction l with
  | nil => simp
  | cons x xs ih =>
    simp only [List.map_cons, List.sum_cons, List.length_cons, ih]
    ring

theorem length_allNodup_le (n : ℕ) : (allNodup n).length ≤ 2 ^ n * n.factorial := by
  unfold allNodup
  rw [List.length_flatMap]
  have hbound : ∀ s ∈ (List.range n).sublists, (s.permutations).length ≤ n.factorial := by
    intro s hs
    rw [List.length_permutations]
    exact Nat.factorial_le
      (by simpa [List.length_range] using (List.mem_sublists.mp hs).length_le)
  calc ((List.range n).sublists.map (fun s => s.permutations.length)).sum
      ≤ ((List.range n).sublists.map (fun _ => n.factorial)).sum :=
        List.sum_le_sum hbound
  _ = (List.range n).sublists.length * n.factorial := map_const_sum _ _
  _ = 2 ^ n * n.factorial := by rw [List.length_sublists, List.length_range]

theorem walkCosts_length_le (g : Graph) : ∀ (p : List ℕ),
    (walkCosts g p).length ≤ (g.totalEdges + 1) ^ p.length := by
  intro p
  match p with
  | [] => simp [walkCosts]
  | [v] => simp [walkCosts]
  | u :: v :: rest =>
    have ih := walkCosts_length_le g (v :: rest)
    rw [walkCosts, List.length_flatMap]
    have hfl : ∀ e ∈ (g.edgesAt u).filter (fun e => e.node = v),
        ((walkCosts g (v :: rest)).map (fun k => e.cost + k)).length ≤
          (g.totalEdges + 1) ^ (v :: rest).length := by
      intro e he
      rw [List.length_map]
      exact ih
    have hlen : ((g.edgesAt u).filter (fun e => e.node = v)).length ≤ g.totalEdges := by
      have h1 : ((g.edgesAt u).filter (fun e => e.node = v)).length ≤ (g.edgesAt u).length :=
        (List.filter_sublist _).length_le
      have h2 : (g.edgesAt u).length ≤ g.totalEdges := by
        unfold Graph.edgesAt Graph.totalEdges
        by_cases hu : u < g.edges.length
        · rw [List.getD_eq_getElem?_getD, List.getElem?_eq_getElem hu]
          simp only [Option.getD_some]
          exact elem_le_sum (List.mem_map.mpr ⟨g.edges[u], by simp [hu], rfl⟩)
        · rw [List.getD_eq_default]
          · simp
          · omega
      omega
    calc (((g.edgesAt u).filter (fun e => e.node = v)).map
          (fun e => ((walkCosts g (v :: rest)).map (fun k => e.cost + k)).length)).sum
        ≤ (((g.edgesAt u).filter (fun e => e.node = v)).map
          (fun _ => (g.totalEdges + 1) ^ (v :: rest).length)).sum := List.sum_le_sum hfl
    _ = ((g.edgesAt u).filter (fun e => e.node = v)).length *
          (g.totalEdges + 1) ^ (v :: rest).length := map_const_sum _ _
    _ ≤ (g.totalEdges + 1) ^ (u :: v :: rest).length := by
        rw [show (u :: v :: rest).length = (v :: rest).length + 1 from rfl, pow_succ]
        have := Nat.mul_le_mul_right ((g.totalEdges + 1) ^ (v :: rest).length)
          (show ((g.edgesAt u).filter (fun e => e.node = v)).length ≤ g.totalEdges + 1 by omega)
        calc _ ≤ (g.totalEdges + 1) * (g.totalEdges + 1) ^ (v :: rest).length := this
        _ = (g.totalEdges + 1) ^ (v :: rest).length * (g.totalEdges + 1) := by ring

theorem walkCosts_mem_snoc {g : Graph} :
    ∀ {p : List ℕ} {k u v c : ℕ}, k ∈ walkCosts g p → p.getLast? = some u →
      (⟨v, c⟩ : Edge) ∈ g.edgesAt u → k + c ∈ walkCosts g (p ++ [v]) := by
  intro p
  induction p with
  | nil => intro k u v c hk _ _; cases hk
  | cons x rest ih =>
    intro k u v c hk hu he
    cases rest with
    | nil =>
      have hxu : x = u := by simpa using hu
      subst hxu
      have hk0 : k = 0 := by simpa [walkCosts] using hk
      subst hk0
      show 0 + c ∈ walkCosts g [x, v]
      unfold walkCosts
      rw [List.mem_flatMap]
      refine ⟨⟨v, c⟩, List.mem_filter.mpr ⟨he, by simp⟩, ?_⟩
      rw [List.mem_map]
      refine ⟨0, by simp [walkCosts], ?_⟩
      show (⟨v, c⟩ : Edge).cost + 0 = 0 + c
      simp
    | cons y rest' =>
      rw [show walkCosts g (x :: y :: rest') =
        ((g.edgesAt x).filter (fun e => e.node = y)).flatMap
          (fun e => (walkCosts g (y :: rest')).map (fun k => e.cost + k)) from rfl] at hk
      rw [List.mem_flatMap] at hk
      rcases hk with ⟨e, hefil, hmap⟩
      rw [List.mem_map] at hmap
      rcases hmap with ⟨k'', hk'', rfl⟩
      have hu' : (y :: rest').getLast? = some u := by
        rw [← hu]; simp [List.getLast?_cons_cons]
      have hrec := ih hk'' hu' he
      show e.cost + k'' + c ∈ walkCosts g (x :: (y :: rest' ++ [v]))
      rw [show walkCosts g (x :: (y :: rest' ++ [v])) =
        ((g.edgesAt x).filter (fun e => e.node = y)).flatMap
          (fun e => (walkCosts g (y :: rest' ++ [v])).map (fun k => e.cost + k)) from rfl]
      rw [List.mem_flatMap]
      refine ⟨e, hefil, ?_⟩
      rw [List.mem_map]
      exact ⟨k'' + c, hrec, by omega⟩

theorem walk_mem_walkCosts {g : Graph} {s t : ℕ} {p : List ℕ} {k : ℕ}
    (w : Walk g s t p k) : k ∈ walkCosts g p := by
  induction w with
  | nil hv => simp [walkCosts]
  | snoc w hv he ih => exact walkCosts_mem_snoc ih (walk_getLast? w) he

/-- Count of (simple path, edge-choice cost) pairs from `src` to `v` whose
cost is strictly below `bound`: the number of times the algorithm can still
improve the recorded entry of `v`. -/
def pairCount (g : Graph) (src v bound : ℕ) : ℕ :=
  ((allNodup g.edges.length).map (fun p =>
    if p.head? = some src ∧ p.getLast? = some v
    then (walkCosts g p).countP (fun k => decide (k < bound)) else 0)).sum

/-- The termination measure of the Dijkstra loop: queue length plus the
total number of remaining possible improvements. -/
def measureM (g : Graph) (src : ℕ) (c : List (ℕ × List ℕ)) (q : List State) : ℕ :=
  q.length +
    ((List.range g.edges.length).map (fun v => pairCount g src v (cGet c v).1)).sum

theorem sum_lt_sum_of_mem {α : Type _} {l : List α} {a : α} {f g : α → ℕ}
    (ha : a ∈ l) (hle : ∀ x ∈ l, f x ≤ g x) (hlt : f a < g a) :
    (l.map f).sum < (l.map g).sum := by
  induction l with
  | nil => cases ha
  | cons x xs ih =>
    simp only [List.map_cons, List.sum_cons]
    rcases List.mem_cons.mp ha with rfl | ha'
    · have hrest : (xs.map f).sum ≤ (xs.map g).sum :=
        List.sum_le_sum (fun y hy => hle y (List.mem_cons_of_mem _ hy))
      omega
    · have hx : f x ≤ g x := hle x (List.mem_cons_self _ _)
      have := ih ha' (fun y hy => hle y (List.mem_cons_of_mem _ hy))
      omega

theorem countP_lt_of_mem {l : List ℕ} {a : ℕ} {P Q : ℕ → Bool} (ha : a ∈ l)
    (hPQ : ∀ x, P x = true → Q x = true) (hQ : Q a = true) (hP : P a = false) :
    l.countP P < l.countP Q := by
  induction l with
  | nil => cases ha
  | cons x xs ih =>
    rw [List.countP_cons, List.countP_cons]
    rcases List.mem_cons.mp ha with rfl | ha'
    · rw [hP, hQ]
      have hmono : xs.countP P ≤ xs.countP Q := List.countP_mono_left (fun y _ hy => hPQ y hy)
      simp only [Bool.false_eq_true, if_false, if_true]
      omega
    · have hx : (if P x then 1 else 0) ≤ (if Q x then 1 else 0) := by
        by_cases hPx : P x = true
        · simp [hPx, hPQ x hPx]
        · simp only [Bool.not_eq_true] at hPx
          simp [hPx]
      have := ih ha'
      omega

theorem pairCount_mono (g : Graph) (src v : ℕ) {b b' : ℕ} (h : b ≤ b') :
    pairCount g src v b ≤ pairCount g src v b' := by
  unfold pairCount
  refine List.sum_le_sum ?_
  intro p hp
  by_cases hc : p.head? = some src ∧ p.getLast? = some v
  · simp only [if_pos hc]
    exact List.countP_mono_left (fun k _ hk => by
      simp only [decide_eq_true_eq] at hk ⊢
      omega)
  · simp [hc]

theorem pairCount_lt (g : Graph) (src v : ℕ) {b b' : ℕ} {p : List ℕ} {k : ℕ}
    (hw : Walk g src v p k) (hnd : p.Nodup) (hkb : k < b) (hkb' : ¬ k < b') :
    pairCount g src v b' < pairCount g src v b := by
  unfold pairCount
  refine sum_lt_sum_of_mem (mem_allNodup hnd (walk_mem_lt hw)) ?_ ?_
  · intro q hq
    by_cases hc : q.head? = some src ∧ q.getLast? = some v
    · simp only [if_pos hc]
      exact List.countP_mono_left (fun x _ hx => by
        simp only [decide_eq_true_eq] at hx ⊢
        have : b' ≤ b := by omega
        omega)
    · simp [hc]
  · have hc : p.head? = some src ∧ p.getLast? = some v := ⟨walk_head? hw, walk_getLast? hw⟩
    simp only [if_pos hc]
    refine countP_lt_of_mem (walk_mem_walkCosts hw) ?_ ?_ ?_
    · intro x hx
      simp only [decide_eq_true_eq] at hx ⊢
      have : b' ≤ b := by omega
      omega
    · simp only [decide_eq_true_eq]
      exact hkb
    · simp only [decide_eq_false_iff_not, decide_eq_true_eq]
      exact hkb'

theorem measure_push_le (g : Graph) (src : ℕ) (c : List (ℕ × List ℕ)) (q : List State)
    (v : ℕ) (hv : v < g.edges.length) (hlen : c.length = g.edges.length)
    (newc : ℕ) (newp : List ℕ) (s' : State)
    (hlt : newc < (cGet c v).1) (hw : Walk g src v newp newc) (hnd : newp.Nodup) :
    measureM g src (c.set v (newc, newp)) (s' :: q) ≤ measureM g src c q := by
  unfold measureM
  have hterm : ∀ u ∈ List.range g.edges.length,
      pairCount g src u (cGet (c.set v (newc, newp)) u).1 ≤
        pairCount g src u (cGet c u).1 := by
    intro u hu
    by_cases huv : u = v
    · subst huv
      rw [cGet_set_self (by omega) _]
      exact pairCount_mono g src u (by omega)
    · rw [cGet_set_ne huv]
  have hstrict : pairCount g src v (cGet (c.set v (newc, newp)) v).1 <
      pairCount g src v (cGet c v).1 := by
    rw [cGet_set_self (by omega) _]
    exact pairCount_lt g src v hw hnd hlt (by omega)
  have hsum := sum_lt_sum_of_mem (List.mem_range.mpr hv) hterm hstrict
  simp only [List.length_cons]
  omega

/-! ## The Dijkstra loop invariant -/

/-- Invariant tying the cost table and queue to genuine walks: the source
entry is pinned, every recorded entry stores a simple walk of exactly its
recorded cost, and every queue entry is a simple walk whose cost dominates
the recorded entry of its node and of every node on its path. -/
structure LoopInv (g : Graph) (src : ℕ) (c : List (ℕ × List ℕ)) (q : List State) : Prop where
  hlen : c.length = g.edges.length
  hsrc : cGet c src = (0, [src])
  hent : ∀ v, v < g.edges.length →
    cGet c v = (USIZE_MAX, []) ∨
    (Walk g src v (cGet c v).2 (cGet c v).1 ∧ (cGet c v).2.Nodup ∧ (cGet c v).1 < USIZE_MAX)
  hq : ∀ s ∈ q, s.position < g.edges.length ∧ Walk g src s.position s.path s.cost ∧
    s.path.Nodup ∧ s.cost < USIZE_MAX ∧ (cGet c s.position).1 ≤ s.cost ∧
    ∀ w ∈ s.path, (cGet c w).1 ≤ s.cost

theorem LoopInv.fstLe {g : Graph} {src : ℕ} {c : List (ℕ × List ℕ)} {q : List State}
    (h : LoopInv g src c q) (v : ℕ) : (cGet c v).1 ≤ USIZE_MAX := by
  by_cases hv : v < g.edges.length
  · rcases h.hent v hv with he | ⟨-, -, hlt⟩
    · rw [he]
    · omega
  · have hlen := h.hlen
    rw [cGet_default (by omega)]

theorem wf_edge_lt {g : Graph} (hWF : WellFormed g) {u : ℕ} (hu : u < g.edges.length)
    {e : Edge} (he : e ∈ g.edgesAt u) : e.node < g.edges.length := by
  have hmem : g.edgesAt u ∈ g.edges := by
    unfold Graph.edgesAt
    rw [List.getD_eq_getElem?_getD, List.getElem?_eq_getElem hu]
    exact List.getElem_mem hu
  exact hWF _ hmem e he

theorem relaxList_spec (g : Graph) (src : ℕ) (hWF : WellFormed g) (pos cur : ℕ)
    (path : List ℕ) (hpos : pos < g.edges.length)
    (hw : Walk g src pos path cur) (hnd : path.Nodup) (_hcmax : cur < USIZE_MAX) :
    ∀ (es : List Edge) (c : List (ℕ × List ℕ)) (q : List State),
      (∀ e ∈ es, e ∈ g.edgesAt pos) →
      LoopInv g src c q →
      (∀ w ∈ path, (cGet c w).1 ≤ cur) →
      (cGet c pos).1 = cur →
      LoopInv g src (Graph.relaxList cur path es c q).1 (Graph.relaxList cur path es c q).2 ∧
      (∀ v, (cGet (Graph.relaxList cur path es c q).1 v).1 ≤ (cGet c v).1) ∧
      (∀ v, cGet (Graph.relaxList cur path es c q).1 v = cGet c v ∨
        ∃ s' ∈ (Graph.relaxList cur path es c q).2, s'.position = v ∧
          s'.cost = (cGet (Graph.relaxList cur path es c q).1 v).1 ∧
          s'.path = (cGet (Graph.relaxList cur path es c q).1 v).2) ∧
      (∀ s' ∈ q, s' ∈ (Graph.relaxList cur path es c q).2) ∧
      (∀ e ∈ es, (cGet (Graph.relaxList cur path es c q).1 e.node).1 ≤ cur + e.cost) ∧
      (cGet (Graph.relaxList cur path es c q).1 pos).1 = cur ∧
      measureM g src (Graph.relaxList cur path es c q).1 (Graph.relaxList cur path es c q).2 ≤
        measureM g src c q := by
  intro es
  induction es with
  | nil =>
    intro c q hes hInv hpb hcpos
    refine ⟨hInv, fun v => le_refl _, fun v => Or.inl rfl, fun s' hs' => hs', ?_, hcpos,
      le_refl _⟩
    intro e he
    cases he
  | cons e es' ih =>
    obtain ⟨en, ec⟩ := e
    intro c q hes hInv hpb hcpos
    have heKey : (⟨en, ec⟩ : Edge) ∈ g.edgesAt pos := hes _ (List.mem_cons_self _ _)
    have hstep : Graph.relaxList cur path ((⟨en, ec⟩ : Edge) :: es') c q =
        if cur + ec < (cGet c en).1 then
          Graph.relaxList cur path es' (c.set en (cur + ec, path ++ [en]))
            (⟨cur + ec, en, path ++ [en]⟩ :: q)
        else Graph.relaxList cur path es' c q := rfl
    by_cases hpush : cur + ec < (cGet c en).1
    · rw [if_pos hpush] at hstep
      rw [hstep]
      -- facts about the pushed entry
      have hv' : en < g.edges.length := wf_edge_lt hWF hpos heKey
      have hnotin : en ∉ path := by
        intro hin
        have := hpb en hin
        omega
      have hw1 : Walk g src en (path ++ [en]) (cur + ec) := Walk.snoc hw hv' heKey
      have hnd1 : (path ++ [en]).Nodup := by
        refine List.Nodup.append hnd (List.nodup_singleton en) ?_
        intro x hx hx'
        rcases List.mem_singleton.mp hx' with rfl
        exact hnotin hx
      have hmax1 : cur + ec < USIZE_MAX := by
        have := hInv.fstLe en
        omega
      have hensrc : en ≠ src := by
        intro hc
        rw [hc, hInv.hsrc] at hpush
        omega
      have henpos : en ≠ pos := by
        intro hc
        rw [hc, hcpos] at hpush
        omega
      have hlen1 : en < c.length := by rw [hInv.hlen]; exact hv'
      have hself : cGet (c.set en (cur + ec, path ++ [en])) en = (cur + ec, path ++ [en]) :=
        cGet_set_self hlen1 _
      have hdec : ∀ v, (cGet (c.set en (cur + ec, path ++ [en])) v).1 ≤ (cGet c v).1 := by
        intro v
        by_cases hv : v = en
        · subst hv
          rw [hself]
          omega
        · rw [cGet_set_ne hv]
      have hInv1 : LoopInv g src (c.set en (cur + ec, path ++ [en]))
          (⟨cur + ec, en, path ++ [en]⟩ :: q) := by
        refine ⟨by rw [List.length_set]; exact hInv.hlen, ?_, ?_, ?_⟩
        · rw [cGet_set_ne (Ne.symm hensrc)]
          exact hInv.hsrc
        · intro v hv
          by_cases hven : v = en
          · subst hven
            rw [hself]
            exact Or.inr ⟨hw1, hnd1, hmax1⟩
          · rw [cGet_set_ne hven]
            exact hInv.hent v hv
        · intro s hs
          rcases List.mem_cons.mp hs with rfl | hs'
          · refine ⟨hv', hw1, hnd1, hmax1, by rw [hself], ?_⟩
            intro w hwmem
            show (cGet (c.set en (cur + ec, path ++ [en])) w).1 ≤ cur + ec
            rcases List.mem_append.mp hwmem with hw' | hw'
            · have hwne : w ≠ en := fun hc => hnotin (hc ▸ hw')
              rw [cGet_set_ne hwne]
              have := hpb w hw'
              omega
            · rcases List.mem_singleton.mp hw' with rfl
              rw [hself]
          · rcases hInv.hq s hs' with ⟨h1, h2, h3, h4, h5, h6⟩
            refine ⟨h1, h2, h3, h4, le_trans (hdec s.position) h5, ?_⟩
            intro w hwmem
            exact le_trans (hdec w) (h6 w hwmem)
      have hpb1 : ∀ w ∈ path, (cGet (c.set en (cur + ec, path ++ [en])) w).1 ≤ cur := by
        intro w hw'
        have hwne : w ≠ en := fun hc => hnotin (hc ▸ hw')
        rw [cGet_set_ne hwne]
        exact hpb w hw'
      have hcpos1 : (cGet (c.set en (cur + ec, path ++ [en])) pos).1 = cur := by
        rw [cGet_set_ne (Ne.symm henpos)]
        exact hcpos
      have hes1 : ∀ e ∈ es', e ∈ g.edgesAt pos := fun e he => hes e (List.mem_cons_of_mem _ he)
      rcases ih (c.set en (cur + ec, path ++ [en])) (⟨cur + ec, en, path ++ [en]⟩ :: q)
        hes1 hInv1 hpb1 hcpos1 with ⟨R1, R2, R3, R4, R5, R6, R7⟩
      refine ⟨R1, ?_, ?_, ?_, ?_, R6, ?_⟩
      · intro v
        exact le_trans (R2 v) (hdec v)
      · intro v
        rcases R3 v with hsame | hpend
        · by_cases hven : v = en
          · subst hven
            refine Or.inr ⟨⟨cur + ec, v, path ++ [v]⟩,
              R4 _ (List.mem_cons_self _ _), rfl, ?_, ?_⟩
            · rw [hsame, hself]
            · rw [hsame, hself]
          · rw [hsame, cGet_set_ne hven]
            exact Or.inl rfl
        · exact Or.inr hpend
      · intro s' hs'
        exact R4 s' (List.mem_cons_of_mem _ hs')
      · intro e he
        rcases List.mem_cons.mp he with rfl | he'
        · show (cGet (Graph.relaxList cur path es' (c.set en (cur + ec, path ++ [en]))
              (⟨cur + ec, en, path ++ [en]⟩ :: q)).1 en).1 ≤ cur + ec
          have hR := R2 en
          rw [hself] at hR
          simpa using hR
        · exact R5 e he'
      · refine le_trans R7 ?_
        exact measure_push_le g src c q en hv' hInv.hlen (cur + ec) (path ++ [en])
          ⟨cur + ec, en, path ++ [en]⟩ hpush hw1 hnd1
    · rw [if_neg hpush] at hstep
      rw [hstep]
      rcases ih c q (fun e he => hes e (List.mem_cons_of_mem _ he)) hInv hpb hcpos with
        ⟨R1, R2, R3, R4, R5, R6, R7⟩
      refine ⟨R1, R2, R3, R4, ?_, R6, R7⟩
      intro e he
      rcases List.mem_cons.mp he with rfl | he'
      · show (cGet (Graph.relaxList cur path es' c q).1 en).1 ≤ cur + ec
        have h1 := R2 en
        have h2 : (cGet c en).1 ≤ cur + ec := by omega
        exact le_trans h1 h2
      · exact R5 e he'

/-- Node `u` has its current entry represented in the queue. -/
def Pending (c : List (ℕ × List ℕ)) (q : List State) (u : ℕ) : Prop :=
  ∃ s ∈ q, s.position = u ∧ s.cost = (cGet c u).1 ∧ s.path = (cGet c u).2

/-- All edges out of `u` satisfy the relaxation inequality. -/
def Relaxed (g : Graph) (c : List (ℕ × List ℕ)) (u : ℕ) : Prop :=
  ∀ e ∈ g.edgesAt u, (cGet c e.node).1 ≤ (cGet c u).1 + e.cost

/-- Running the loop preserves the invariant, for any amount of fuel. -/
theorem dijkstraLoop_inv (g : Graph) (src : ℕ) (hWF : WellFormed g) :
    ∀ (fuel : ℕ) (c : List (ℕ × List ℕ)) (q : List State), LoopInv g src c q →
      LoopInv g src (Graph.dijkstraLoop g fuel c q) [] := by
  intro fuel
  induction fuel with
  | zero =>
    intro c q hInv
    exact ⟨hInv.hlen, hInv.hsrc, hInv.hent, by intro s hs; cases hs⟩
  | succ fuel ih =>
    intro c q hInv
    rcases hpop : Graph.popMin q with - | ⟨s, rest⟩
    · simp only [Graph.dijkstraLoop, hpop]
      exact ⟨hInv.hlen, hInv.hsrc, hInv.hent, by intro s hs; cases hs⟩
    · have hperm := popMin_perm hpop
      have hmemq : s ∈ q := hperm.mem_iff.mpr (List.mem_cons_self _ _)
      have hrest : ∀ s' ∈ rest, s' ∈ q := fun s' hs' =>
        hperm.mem_iff.mpr (List.mem_cons_of_mem _ hs')
      have hInvRest : LoopInv g src c rest :=
        ⟨hInv.hlen, hInv.hsrc, hInv.hent, fun s' hs' => hInv.hq s' (hrest s' hs')⟩
      simp only [Graph.dijkstraLoop, hpop]
      rw [show (c.getD s.position ((USIZE_MAX : ℕ), ([] : List ℕ))) = cGet c s.position
        from rfl]
      by_cases hstale : (cGet c s.position).1 < s.cost
      · rw [if_pos hstale]
        exact ih c rest hInvRest
      · rw [if_neg hstale]
        rcases hInv.hq s hmemq with ⟨h1, h2, h3, h4, h5, h6⟩
        have hcpos : (cGet c s.position).1 = s.cost := by omega
        have hres := relaxList_spec g src hWF s.position s.cost s.path h1 h2 h3 h4
          (g.edgesAt s.position) c rest (fun e he => he) hInvRest h6 hcpos
        exact ih _ _ hres.1

/-- With enough fuel the loop drains the queue and leaves every node
relaxed. -/
theorem dijkstraLoop_run (g : Graph) (src : ℕ) (hWF : WellFormed g) :
    ∀ (fuel : ℕ) (c : List (ℕ × List ℕ)) (q : List State),
      LoopInv g src c q →
      (∀ u, u < g.edges.length → Pending c q u ∨ Relaxed g c u) →
      measureM g src c q < fuel →
      LoopInv g src (Graph.dijkstraLoop g fuel c q) [] ∧
      (∀ u, u < g.edges.length → Relaxed g (Graph.dijkstraLoop g fuel c q) u) := by
  intro fuel
  induction fuel with
  | zero =>
    intro c q hInv hpr hM
    omega
  | succ fuel ih =>
    intro c q hInv hpr hM
    rcases hpop : Graph.popMin q with - | ⟨s, rest⟩
    · rcases popMin_eq_none.mp hpop with rfl
      simp only [Graph.dijkstraLoop, hpop]
      refine ⟨⟨hInv.hlen, hInv.hsrc, hInv.hent, by intro t ht; cases ht⟩, ?_⟩
      intro u hu
      rcases hpr u hu with hpend | hrel
      · rcases hpend with ⟨t, ht, -⟩
        cases ht
      · exact hrel
    · have hperm := popMin_perm hpop
      have hmemq : s ∈ q := hperm.mem_iff.mpr (List.mem_cons_self _ _)
      have hrest : ∀ s' ∈ rest, s' ∈ q := fun s' hs' =>
        hperm.mem_iff.mpr (List.mem_cons_of_mem _ hs')
      have hInvRest : LoopInv g src c rest :=
        ⟨hInv.hlen, hInv.hsrc, hInv.hent, fun s' hs' => hInv.hq s' (hrest s' hs')⟩
      have hlenq : q.length = rest.length + 1 := by
        rw [hperm.length_eq]
        rfl
      have hMrest : measureM g src c rest < measureM g src c q := by
        unfold measureM
        omega
      simp only [Graph.dijkstraLoop, hpop]
      rw [show (c.getD s.position ((USIZE_MAX : ℕ), ([] : List ℕ))) = cGet c s.position
        from rfl]
      by_cases hstale : (cGet c s.position).1 < s.cost
      · rw [if_pos hstale]
        have hprRest : ∀ u, u < g.edges.length → Pending c rest u ∨ Relaxed g c u := by
          intro u hu
          rcases hpr u hu with ⟨t, ht, htpos, htcost, htpath⟩ | hrel
          · left
            refine ⟨t, ?_, htpos, htcost, htpath⟩
            rcases List.mem_cons.mp (hperm.mem_iff.mp ht) with rfl | ht'
            · exfalso
              rw [htpos] at hstale
              omega
            · exact ht'
          · right
            exact hrel
        exact ih c rest hInvRest hprRest (by omega)
      · rw [if_neg hstale]
        rcases hInv.hq s hmemq with ⟨h1, h2, h3, h4, h5, h6⟩
        have hcpos : (cGet c s.position).1 = s.cost := by omega
        have hres := relaxList_spec g src hWF s.position s.cost s.path h1 h2 h3 h4
          (g.edgesAt s.position) c rest (fun e he => he) hInvRest h6 hcpos
        rcases hres with ⟨R1, R2, R3, R4, R5, R6, R7⟩
        have hprNew : ∀ u, u < g.edges.length →
            Pending (Graph.relaxList s.cost s.path (g.edgesAt s.position) c rest).1
              (Graph.relaxList s.cost s.path (g.edgesAt s.position) c rest).2 u ∨
            Relaxed g (Graph.relaxList s.cost s.path (g.edgesAt s.position) c rest).1 u := by
          intro u hu
          by_cases hupos : u = s.position
          · subst hupos
            right
            intro e he
            have := R5 e he
            rw [R6]
            omega
          · rcases R3 u with hsame | hpend
            · rcases hpr u hu with ⟨t, ht, htpos, htcost, htpath⟩ | hrel
              · left
                refine ⟨t, ?_, htpos, by rw [hsame]; exact htcost, by rw [hsame]; exact htpath⟩
                rcases List.mem_cons.mp (hperm.mem_iff.mp ht) with rfl | ht'
                · exact absurd htpos.symm hupos
                · exact R4 t ht'
              · right
                intro e he
                have hdrop := R2 e.node
                have := hrel e he
                rw [hsame]
                omega
            · left
              exact hpend
        exact ih _ _ R1 hprNew (by omega)

/-! ## Running Dijkstra from the initial state -/

/-- The cost table produced by the loop inside `find_shortest_path`. -/
def dijkstraFinal (g : Graph) (src : ℕ) : List (ℕ × List ℕ) :=
  Graph.dijkstraLoop g (Graph.dijkstraFuel g)
    ((List.replicate g.edges.length ((USIZE_MAX : ℕ), ([] : List ℕ))).set src (0, [src]))
    [⟨0, src, [src]⟩]

theorem find_shortest_path_eq (g : Graph) (a b : ℕ) :
    g.find_shortest_path a b =
      if (cGet (dijkstraFinal g a) b).2.isEmpty then none
      else some ((cGet (dijkstraFinal g a) b).2) := rfl

theorem USIZE_MAX_pos : 0 < USIZE_MAX := by decide

theorem initial_loopInv (g : Graph) (src : ℕ) (hs : src < g.edges.length) :
    LoopInv g src
      ((List.replicate g.edges.length ((USIZE_MAX : ℕ), ([] : List ℕ))).set src (0, [src]))
      [⟨0, src, [src]⟩] := by
  have hrep := cGet_replicate_set g.edges.length src hs
  refine ⟨?_, hrep.2, ?_, ?_⟩
  · rw [List.length_set, List.length_replicate]
  · intro v hv
    by_cases hvs : v = src
    · subst hvs
      rw [hrep.2]
      exact Or.inr ⟨Walk.nil v hv, List.nodup_singleton v, USIZE_MAX_pos⟩
    · rw [hrep.1 v hvs]
      exact Or.inl rfl
  · intro s hs'
    rcases List.mem_singleton.mp hs' with rfl
    refine ⟨hs, Walk.nil src hs, List.nodup_singleton src, USIZE_MAX_pos, by rw [hrep.2], ?_⟩
    intro w hw
    rcases List.mem_singleton.mp hw with rfl
    rw [hrep.2]

theorem initial_pending (g : Graph) (src : ℕ) (hs : src < g.edges.length) :
    ∀ u, u < g.edges.length →
      Pending ((List.replicate g.edges.length ((USIZE_MAX : ℕ),
          ([] : List ℕ))).set src (0, [src])) [⟨0, src, [src]⟩] u ∨
      Relaxed g ((List.replicate g.edges.length ((USIZE_MAX : ℕ),
          ([] : List ℕ))).set src (0, [src])) u := by
  have hrep := cGet_replicate_set g.edges.length src hs
  intro u hu
  by_cases hus : u = src
  · subst hus
    left
    exact ⟨⟨0, u, [u]⟩, List.mem_singleton.mpr rfl, rfl, by rw [hrep.2], by rw [hrep.2]⟩
  · right
    intro e he
    rw [hrep.1 u hus]
    have hb : ∀ v, (cGet ((List.replicate g.edges.length ((USIZE_MAX : ℕ),
        ([] : List ℕ))).set src (0, [src])) v).1 ≤ USIZE_MAX := by
      intro v
      by_cases hvs : v = src
      · subst hvs
        rw [hrep.2]
        exact Nat.le_of_lt USIZE_MAX_pos
      · rw [hrep.1 v hvs]
    have := hb e.node
    omega

theorem sum_le_length_mul {α : Type _} (l : List α) (f : α → ℕ) (B : ℕ)
    (h : ∀ x ∈ l, f x ≤ B) : (l.map f).sum ≤ l.length * B := by
  induction l with
  | nil => simp
  | cons x xs ih =>
    simp only [List.map_cons, List.sum_cons, List.length_cons]
    have h1 := h x (List.mem_cons_self _ _)
    have h2 := ih (fun y hy => h y (List.mem_cons_of_mem _ hy))
    calc f x + (xs.map f).sum ≤ B + xs.length * B := by omega
    _ = (xs.length + 1) * B := by ring

theorem pairCount_le (g : Graph) (src v b : ℕ) :
    pairCount g src v b ≤ 2 ^ g.edges.length * (g.edges.length).factorial *
      (g.totalEdges + 1) ^ g.edges.length := by
  unfold pairCount
  have hterm : ∀ p ∈ allNodup g.edges.length,
      (if p.head? = some src ∧ p.getLast? = some v
       then (walkCosts g p).countP (fun k => decide (k < b)) else 0) ≤
        (g.totalEdges + 1) ^ g.edges.length := by
    intro p hp
    by_cases hc : p.head? = some src ∧ p.getLast? = some v
    · rw [if_pos hc]
      calc (walkCosts g p).countP (fun k => decide (k < b)) ≤ (walkCosts g p).length :=
            List.countP_le_length _
      _ ≤ (g.totalEdges + 1) ^ p.length := walkCosts_length_le g p
      _ ≤ (g.totalEdges + 1) ^ g.edges.length :=
            Nat.pow_le_pow_right (by omega) (allNodup_length_le hp)
    · rw [if_neg hc]
      exact Nat.zero_le _
  calc ((allNodup g.edges.length).map _).sum
      ≤ (allNodup g.edges.length).length * (g.totalEdges + 1) ^ g.edges.length :=
        sum_le_length_mul _ _ _ hterm
  _ ≤ (2 ^ g.edges.length * (g.edges.length).factorial) *
        (g.totalEdges + 1) ^ g.edges.length :=
        Nat.mul_le_mul_right _ (length_allNodup_le _)
  _ = 2 ^ g.edges.length * (g.edges.length).factorial *
        (g.totalEdges + 1) ^ g.edges.length := by ring

theorem initial_measure_lt (g : Graph) (src : ℕ) :
    measureM g src
      ((List.replicate g.edges.length ((USIZE_MAX : ℕ), ([] : List ℕ))).set src (0, [src]))
      [⟨0, src, [src]⟩] < Graph.dijkstraFuel g := by
  unfold measureM Graph.dijkstraFuel
  have hsum : ((List.range g.edges.length).map (fun v => pairCount g src v
      (cGet ((List.replicate g.edges.length ((USIZE_MAX : ℕ),
        ([] : List ℕ))).set src (0, [src])) v).1)).sum ≤
      g.edges.length * (2 ^ g.edges.length * (g.edges.length).factorial *
        (g.totalEdges + 1) ^ g.edges.length) := by
    calc _ ≤ (List.range g.edges.length).length *
        (2 ^ g.edges.length * (g.edges.length).factorial *
          (g.totalEdges + 1) ^ g.edges.length) :=
      sum_le_length_mul _ _ _ (fun v _ => pairCount_le g src v _)
    _ = g.edges.length * (2 ^ g.edges.length * (g.edges.length).factorial *
          (g.totalEdges + 1) ^ g.edges.length) := by rw [List.length_range]
  simp only [List.length_singleton]
  omega

/-- After the loop, the recorded cost of every node is at most the cost of
any walk reaching it. -/
theorem final_min (g : Graph) (src : ℕ) (c' : List (ℕ × List ℕ))
    (hInv : LoopInv g src c' []) (hrel : ∀ u, u < g.edges.length → Relaxed g c' u) :
    ∀ {t : ℕ} {p : List ℕ} {k : ℕ}, Walk g src t p k → (cGet c' t).1 ≤ k := by
  intro t p k w
  induction w with
  | nil hv => rw [hInv.hsrc]
  | snoc w hv he ih =>
    rename_i u p' k' v ec
    have hu : u < g.edges.length := walk_endpoint_lt w
    have hr := hrel u hu ⟨v, ec⟩ he
    have : (cGet c' v).1 ≤ (cGet c' u).1 + ec := hr
    omega

theorem walk_length_one {g : Graph} {a b : ℕ} {p : List ℕ} {k : ℕ}
    (w : Walk g a b p k) (h : p.length = 1) : a = b := by
  cases w with
  | nil hv => rfl
  | snoc w' hv he =>
    rename_i u p' k' c
    exact absurd (show p' = [] by simpa using h) (walk_ne_nil w')

/-- C1 (amended): with well-formed adjacency lists and the total edge cost
below the `usize::MAX` sentinel, `find_shortest_path a b` returns a path of
minimum walk cost when it returns `Some`, and returns `None` exactly when no
walk from `a` to `b` exists. -/
theorem claim_C1 (g : Graph) (a b : ℕ) (hWF : WellFormed g)
    (ha : a < g.edges.length) (hb : b < g.edges.length)
    (hmax : g.totalCost < USIZE_MAX) :
    (∀ p, Graph.find_shortest_path g a b = some p →
      ∃ k, Walk g a b p k ∧ ∀ p' k', Walk g a b p' k' → k ≤ k') ∧
    (Graph.find_shortest_path g a b = none ↔ ¬ ∃ p k, Walk g a b p k) := by
  have hrun := dijkstraLoop_run g a hWF (Graph.dijkstraFuel g) _ _
    (initial_loopInv g a ha) (initial_pending g a ha) (initial_measure_lt g a)
  have hInv : LoopInv g a (dijkstraFinal g a) [] := hrun.1
  have hrel : ∀ u, u < g.edges.length → Relaxed g (dijkstraFinal g a) u := hrun.2
  have hmin : ∀ {t : ℕ} {p : List ℕ} {k : ℕ}, Walk g a t p k →
      (cGet (dijkstraFinal g a) t).1 ≤ k := final_min g a (dijkstraFinal g a) hInv hrel
  constructor
  · intro p hp
    rw [find_shortest_path_eq] at hp
    by_cases hE : (cGet (dijkstraFinal g a) b).2.isEmpty = true
    · rw [if_pos hE] at hp
      exact absurd hp (by simp)
    · rw [if_neg hE] at hp
      injection hp with hpv
      subst hpv
      rcases hInv.hent b hb with hcase | ⟨w, hnd, hlt⟩
      · exact absurd (by rw [hcase]; rfl) hE
      · exact ⟨(cGet (dijkstraFinal g a) b).1, w, fun p' k' w' => hmin w'⟩
  · constructor
    · intro hnone hex
      rcases hex with ⟨q, k, wq⟩
      rw [find_shortest_path_eq] at hnone
      by_cases hE : (cGet (dijkstraFinal g a) b).2.isEmpty = true
      · have hwc := walk_walkCost wq
        obtain ⟨p', k', hc', hnd', hle', hh', hl', hmem'⟩ :=
          walkCost_simple g q.length q k (le_refl _) hwc
        have hlt' : ∀ x ∈ p', x < g.edges.length :=
          fun x hx => walk_mem_lt wq x (hmem' x hx)
        have hk' : k' ≤ g.totalCost := simple_walk_le_totalCost hc' hnd' hlt'
        have hw' : Walk g a b p' k' :=
          walk_of_walkCost (by rw [hh']; exact walk_head? wq)
            (by rw [hl']; exact walk_getLast? wq) hlt' hc'
        have h1 : (cGet (dijkstraFinal g a) b).1 ≤ k' := hmin hw'
        rcases hInv.hent b hb with hcase | ⟨w, hnd, hltb⟩
        · have h2 : USIZE_MAX ≤ k' := by rw [hcase] at h1; exact h1
          omega
        · have hemp : (cGet (dijkstraFinal g a) b).2 = [] := List.isEmpty_iff.mp hE
          exact absurd hemp (walk_ne_nil w)
      · rw [if_neg hE] at hnone
        exact absurd hnone (by simp)
    · intro hno
      rw [find_shortest_path_eq]
      by_cases hE : (cGet (dijkstraFinal g a) b).2.isEmpty = true
      · rw [if_pos hE]
      · exfalso
        rcases hInv.hent b hb with hcase | ⟨w, hnd, hlt⟩
        · exact hE (by rw [hcase]; rfl)
        · exact hno ⟨_, _, w⟩

theorem claim_C1_witness :
    WellFormed ⟨[[⟨1, (3 : ℕ)⟩], []]⟩ ∧
    Graph.totalCost ⟨[[⟨1, (3 : ℕ)⟩], []]⟩ < USIZE_MAX ∧
    (∃ k, Walk ⟨[[⟨1, (3 : ℕ)⟩], []]⟩ 0 1 [0, 1] k ∧
      ∀ p' k', Walk ⟨[[⟨1, (3 : ℕ)⟩], []]⟩ 0 1 p' k' → k ≤ k') ∧
    (Graph.find_shortest_path ⟨[[⟨1, (3 : ℕ)⟩], []]⟩ 0 1 = none ↔
      ¬ ∃ p k, Walk ⟨[[⟨1, (3 : ℕ)⟩], []]⟩ 0 1 p k) :=
  ⟨by decide, by decide,
    (claim_C1 ⟨[[⟨1, 3⟩], []]⟩ 0 1 (by decide) (by decide) (by decide) (by decide)).1
      [0, 1] (by decide),
    (claim_C1 ⟨[[⟨1, 3⟩], []]⟩ 0 1 (by decide) (by decide) (by decide) (by decide)).2⟩

/-- C1 counterexample to the unamended claim: a single edge of cost
`usize::MAX` (a non-negative cost) connects node 0 to node 1, yet
`find_shortest_path 0 1` returns `None` even though a path exists, because
the sentinel comparison `next.cost < cost[next].0` can never replace the
`usize::MAX` initial entry. -/
theorem claim_C1_cex :
    Graph.find_shortest_path ⟨[[⟨1, USIZE_MAX⟩], []]⟩ 0 1 = none ∧
    ∃ k, Walk ⟨[[⟨1, USIZE_MAX⟩], []]⟩ 0 1 [0, 1] k :=
  ⟨by decide, 0 + USIZE_MAX,
    Walk.snoc (Walk.nil 0 (by decide)) (by decide) (by decide)⟩

/-- C4: for a valid source index, `find_shortest_path a a` returns the
length-1 path `[a]`; and whenever `find_shortest_path a b` returns a path, it
starts at `a`, ends at `b`, has length at least 1, and has length exactly 1
iff `a = b`. -/
theorem claim_C4 (g : Graph) (a b : ℕ) (hWF : WellFormed g)
    (ha : a < g.edges.length) :
    Graph.find_shortest_path g a a = some [a] ∧
    (∀ p, Graph.find_shortest_path g a b = some p →
      p.head? = some a ∧ p.getLast? = some b ∧ 1 ≤ p.length ∧
        (p.length = 1 ↔ a = b)) := by
  have hInv : LoopInv g a (dijkstraFinal g a) [] :=
    dijkstraLoop_inv g a hWF (Graph.dijkstraFuel g) _ _ (initial_loopInv g a ha)
  constructor
  · rw [find_shortest_path_eq, hInv.hsrc]
    rfl
  · intro p hp
    rw [find_shortest_path_eq] at hp
    by_cases hE : (cGet (dijkstraFinal g a) b).2.isEmpty = true
    · rw [if_pos hE] at hp
      exact absurd hp (by simp)
    · rw [if_neg hE] at hp
      injection hp with hpv
      subst hpv
      have hb : b < g.edges.length := by
        by_contra hnb
        apply hE
        have hlb : (dijkstraFinal g a).length ≤ b := by rw [hInv.hlen]; omega
        show (cGet (dijkstraFinal g a) b).2.isEmpty = true
        unfold cGet
        rw [List.getD_eq_default _ _ hlb]
        rfl
      rcases hInv.hent b hb with hcase | ⟨w, hnd, hlt⟩
      · exact absurd (by rw [hcase]; rfl) hE
      · refine ⟨walk_head? w, walk_getLast? w, ?_, ?_, ?_⟩
        · have hne := walk_ne_nil w
          have := List.length_pos.mpr hne
          omega
        · intro h1
          exact walk_length_one w h1
        · intro hab
          rw [← hab, hInv.hsrc]
          rfl

theorem claim_C4_witness :
    Graph.find_shortest_path ⟨[[⟨1, (3 : ℕ)⟩], []]⟩ 0 0 = some [0] ∧
    ([0, 1].head? = some 0 ∧ [0, 1].getLast? = some 1 ∧ 1 ≤ [0, 1].length ∧
      ([0, 1].length = 1 ↔ (0 : ℕ) = 1)) :=
  ⟨(claim_C4 ⟨[[⟨1, 3⟩], []]⟩ 0 1 (by decide) (by decide)).1,
   (claim_C4 ⟨[[⟨1, 3⟩], []]⟩ 0 1 (by decide) (by decide)).2 [0, 1] (by decide)⟩
